import Mathlib

/-!
# Verification of the RocksDB-backed block-state storage engine

This file gives a shallow embedding of the persistent storage engine found in
`crates/apps/src/lib/node/ledger/storage/rocksdb.rs` and proves properties of
it.  The embedding follows the source function by function:

* Column families are modelled as association lists from composed keys to
  values; a RocksDB `put` is a front insertion (lookups find the most recent
  entry first, which gives overwrite semantics) and a `delete` removes every
  entry with the key.
* Composed keys are modelled as lists of segments.  The external `Key` type
  joins segments with `/` and renders block heights in decimal; since that
  string rendering is injective on segments, we keep the structured segment
  list instead of the rendered string.
* A write batch is modelled as one list of pending put/delete operations per
  column family.  The real `WriteBatch` is a single interleaved sequence, but
  operations on distinct column families commute, so the per-family sequences
  carry the same information.
* Typed values stored in the `state` and `block` column families are modelled
  by the `Val` sum; the external codec is modelled by per-type decoders that
  fail (with a coding error) on a value of the wrong shape.
* Fallible operations return `Except DbErr`; the `todo!` panic reached by
  `overwrite_entry` at a non-current height is modelled by the distinguished
  `DbErr.panic` outcome.
-/

set_option autoImplicit false

/-- Identifier of one of the sub-Merkle-trees.  The concrete enumeration lives
outside the repository sample; only `Base` and `CommitData` are distinguished
by the storage code, all remaining variants are interchangeable, so they are
modelled by an indexed constructor. -/
inductive StoreType where
  | Base
  | CommitData
  | other (n : Nat)
deriving DecidableEq

/-- Raw byte blobs (`Vec<u8>`). -/
abbrev Bytes := List Nat

/-- One segment of a composed storage key.  The external `Key` renders
segments joined by `/`, numbers in decimal and store types by name; that
rendering is injective, so the structured form is kept. -/
inductive Seg where
  | nat (n : Nat)
  | str (s : String)
  | store (t : StoreType)
deriving DecidableEq

/-- A composed storage key: the list of its segments. -/
abbrev DbKey := List Seg

/-- A typed value as stored in the `state` / `block` column families.
`bytes` also covers every opaque value the storage engine never inspects. -/
inductive Val where
  | bytes (b : Bytes)
  | nat (n : Nat)
  | epochs (m : List (Nat × Nat))
deriving DecidableEq

/-- A column family: an association list.  The first entry with a given key
is its current value. -/
abbrev Cf (α : Type) := List (DbKey × α)

/-- Point lookup in a column family. -/
def cfGet {α : Type} : Cf α → DbKey → Option α
  | [], _ => none
  | e :: rest, k => if e.1 = k then some e.2 else cfGet rest k

/-- One pending write-batch operation on a single column family. -/
inductive CfOp (α : Type) where
  | put (k : DbKey) (v : α)
  | del (k : DbKey)
deriving DecidableEq

/-- The key an operation targets. -/
def CfOp.key {α : Type} : CfOp α → DbKey
  | .put k _ => k
  | .del k => k

/-- Apply one operation to a column family. -/
def applyCfOp {α : Type} (cf : Cf α) : CfOp α → Cf α
  | .put k v => (k, v) :: cf
  | .del k => cf.filter (fun e => decide (e.1 ≠ k))

/-- Apply a sequence of operations in order. -/
def applyCfOps {α : Type} (cf : Cf α) (ops : List (CfOp α)) : Cf α :=
  ops.foldl applyCfOp cf

/-- The six column families opened by the engine. -/
structure DbState where
  state : Cf Val
  subspace : Cf Bytes
  diffs : Cf Bytes
  rollbackCf : Cf Bytes
  block : Cf Val
  replayProt : Cf Bytes
deriving DecidableEq

/-- A write batch: the pending operations per column family, in order. -/
structure Batch where
  state : List (CfOp Val)
  subspace : List (CfOp Bytes)
  diffs : List (CfOp Bytes)
  rollbackCf : List (CfOp Bytes)
  block : List (CfOp Val)
  replayProt : List (CfOp Bytes)
deriving DecidableEq

def Batch.empty : Batch := ⟨[], [], [], [], [], []⟩

def Batch.putState (b : Batch) (k : DbKey) (v : Val) : Batch :=
  { b with state := b.state ++ [CfOp.put k v] }

def Batch.putSubspace (b : Batch) (k : DbKey) (v : Bytes) : Batch :=
  { b with subspace := b.subspace ++ [CfOp.put k v] }

def Batch.delSubspace (b : Batch) (k : DbKey) : Batch :=
  { b with subspace := b.subspace ++ [CfOp.del k] }

def Batch.putDiffs (b : Batch) (k : DbKey) (v : Bytes) : Batch :=
  { b with diffs := b.diffs ++ [CfOp.put k v] }

def Batch.delDiffs (b : Batch) (k : DbKey) : Batch :=
  { b with diffs := b.diffs ++ [CfOp.del k] }

def Batch.putRollback (b : Batch) (k : DbKey) (v : Bytes) : Batch :=
  { b with rollbackCf := b.rollbackCf ++ [CfOp.put k v] }

def Batch.delRollback (b : Batch) (k : DbKey) : Batch :=
  { b with rollbackCf := b.rollbackCf ++ [CfOp.del k] }

def Batch.putBlock (b : Batch) (k : DbKey) (v : Val) : Batch :=
  { b with block := b.block ++ [CfOp.put k v] }

def Batch.delBlock (b : Batch) (k : DbKey) : Batch :=
  { b with block := b.block ++ [CfOp.del k] }

def Batch.putReplay (b : Batch) (k : DbKey) (v : Bytes) : Batch :=
  { b with replayProt := b.replayProt ++ [CfOp.put k v] }

def Batch.delReplay (b : Batch) (k : DbKey) : Batch :=
  { b with replayProt := b.replayProt ++ [CfOp.del k] }

/-- `exec_batch`: atomically apply every pending operation. -/
def execBatch (db : DbState) (b : Batch) : DbState :=
  { state := applyCfOps db.state b.state
    subspace := applyCfOps db.subspace b.subspace
    diffs := applyCfOps db.diffs b.diffs
    rollbackCf := applyCfOps db.rollbackCf b.rollbackCf
    block := applyCfOps db.block b.block
    replayProt := applyCfOps db.replayProt b.replayProt }

/-- Errors of the storage engine (`DbError` in the source).  There is no
rollback-distance or unsupported-height variant in the source; the `todo!`
panic is modelled by `panic`. -/
inductive DbErr where
  | dbError (msg : String)
  | codingError
  | unknownKey (k : DbKey)
  | panic (msg : String)
deriving DecidableEq

/- Key layout (`rocksdb.rs` key constants and `old_and_new_diff_key`). -/

def kBlockHeight : DbKey := [Seg.str "height"]
def kNextEpochMinStartHeight : DbKey := [Seg.str "next_epoch_min_start_height"]
def kNextEpochMinStartTime : DbKey := [Seg.str "next_epoch_min_start_time"]
def kUpdateEpochBlocksDelay : DbKey := [Seg.str "update_epoch_blocks_delay"]
def kCommitOnlyData : DbKey := [Seg.str "commit_only_data_commitment"]
def kConversionState : DbKey := [Seg.str "conversion_state"]
def kEthereumHeight : DbKey := [Seg.str "ethereum_height"]
def kEthEventsQueue : DbKey := [Seg.str "eth_events_queue"]

/-- `pred/<name>`: the predecessor sibling of a tracked state singleton. -/
def predKey (k : DbKey) : DbKey := Seg.str "pred" :: k

/-- `results/<height>`. -/
def resultsKey (h : Nat) : DbKey := [Seg.str "results", Seg.nat h]

/-- `<height>/old/<key>` and `<height>/new/<key>` (`old_and_new_diff_key`). -/
def old_and_new_diff_key (key : DbKey) (height : Nat) : DbKey × DbKey :=
  ([Seg.nat height, Seg.str "old"] ++ key, [Seg.nat height, Seg.str "new"] ++ key)

def oldDiffKey (key : DbKey) (height : Nat) : DbKey := (old_and_new_diff_key key height).1

def newDiffKey (key : DbKey) (height : Nat) : DbKey := (old_and_new_diff_key key height).2

/-- Per-height block segment key `<height>/<segment>`. -/
def blockSegKey (h : Nat) (seg : String) : DbKey := [Seg.nat h, Seg.str seg]

/-- Modelled from the spec: the replay-protection key helpers
(`replay_protection::last_key` and friends are outside the repository
sample).  Layout per the spec: `last/<hex-hash>`, `all/<hex-hash>`,
`buffer/<hex-hash>`, with the hash kept as its lowercase-hex string. -/
def lastKey (h : String) : DbKey := [Seg.str "last", Seg.str h]

def allKey (h : String) : DbKey := [Seg.str "all", Seg.str h]

def bufferKey (h : String) : DbKey := [Seg.str "buffer", Seg.str h]

/-- Modelled from the spec: the Merkle store key composition
(`tree_key_prefix_with_height`, external to the sample): `tree/<st>/<height>`. -/
def tree_key_pre_with_height (st : StoreType) (h : Nat) : DbKey :=
  [Seg.str "tree", Seg.store st, Seg.nat h]

/-- Modelled from the spec: `tree_key_prefix_with_epoch`, external to the
sample: `tree/<st>/<epoch>`. -/
def tree_key_pre_with_epoch (st : StoreType) (e : Nat) : DbKey :=
  [Seg.str "tree", Seg.store st, Seg.nat e]

/- Typed reads (`read_value` / `read_value_bytes` with the external codec). -/

/-- Decoder for a block height / epoch (a number). -/
def decNat : Val → Option Nat
  | .nat n => some n
  | _ => none

/-- Decoder for the predecessor-epochs map. -/
def decEpochs : Val → Option (List (Nat × Nat))
  | .epochs m => some m
  | _ => none

/-- Decoder for values the engine stores but never inspects. -/
def decAny : Val → Option Val := fun v => some v

/-- `read_value`: absent key gives `none`; a stored value that the expected
decoder rejects gives a coding error. -/
def read_value {α : Type} (cf : Cf Val) (k : DbKey) (dec : Val → Option α) :
    Except DbErr (Option α) :=
  match cfGet cf k with
  | none => Except.ok none
  | some v =>
    match dec v with
    | some a => Except.ok (some a)
    | none => Except.error DbErr.codingError

/-- Modelled from the spec: `Epochs::get_epoch` (external to the sample).
The predecessor-epochs map associates epoch start heights to epochs; the
epoch of a height is the one whose start is the last start at or below it. -/
def getEpoch (pred_epochs : List (Nat × Nat)) (h : Nat) : Option Nat :=
  pred_epochs.foldl (fun acc e => if e.1 ≤ h then some e.2 else acc) none

/-- Modelled from the spec: `BlockHeight::prev_height` (external to the
sample); rollback targets `last_height - 1`. -/
def prevHeight (h : Nat) : Nat := h - 1

/- Subspace store and diff engine. -/

/-- `read_subspace_val`: point lookup in the subspace column family. -/
def read_subspace_val (db : DbState) (key : DbKey) : Option Bytes :=
  cfGet db.subspace key

/-- The successor-height scan of `read_subspace_val_with_height`: starting at
`raw_height`, look for the first old diff (the value carried into that
height); a new diff without an old one means the key was created there; at
`last_height` fall through to the current subspace value.  The source guards
the reads with `key_may_exist_cf`, a bloom-filter pre-check with the same
final semantics as the read. -/
def rsvhLoopGo (db : DbState) (key : DbKey) (last_height : Nat) :
    Nat → Nat → Option Bytes
  | fuel, raw_height =>
    let ks := old_and_new_diff_key key raw_height
    match cfGet db.diffs ks.1 with
    | some bytes => some bytes
    | none =>
      if (cfGet db.diffs ks.2).isSome then none
      else if last_height ≤ raw_height then read_subspace_val db key
      else
        match fuel with
        | 0 => read_subspace_val db key
        | fuel2 + 1 => rsvhLoopGo db key last_height fuel2 (raw_height + 1)

def rsvhLoop (db : DbState) (key : DbKey) (last_height : Nat) (raw_height : Nat) :
    Option Bytes :=
  rsvhLoopGo db key last_height (last_height - raw_height) raw_height

/-- `read_subspace_val_with_height`: a new diff at the queried height is the
value written there; an old diff without a new one means deletion at that
height; otherwise scan the successor heights. -/
def read_subspace_val_with_height (db : DbState) (key : DbKey)
    (height last_height : Nat) : Option Bytes :=
  let ks := old_and_new_diff_key key height
  match cfGet db.diffs ks.2 with
  | some new_val => some new_val
  | none =>
    if (cfGet db.diffs ks.1).isSome then none
    else rsvhLoop db key last_height (height + 1)

/-- Put a diff value into the diffs column family when diffs are persisted,
into the rollback column family otherwise. -/
def Batch.putDiffCf (b : Batch) (persist_diffs : Bool) (k : DbKey) (v : Bytes) : Batch :=
  if persist_diffs then b.putDiffs k v else b.putRollback k v

/-- `batch_write_subspace_diff`: record the old (if any) and new (if any)
value of a subspace key under the height where it changed. -/
def batch_write_subspace_diff (batch : Batch) (height : Nat) (key : DbKey)
    (old_value new_value : Option Bytes) (persist_diffs : Bool) : Batch :=
  let ks := old_and_new_diff_key key height
  let batch :=
    match old_value with
    | some ov => batch.putDiffCf persist_diffs ks.1 ov
    | none => batch
  match new_value with
  | some nv => batch.putDiffCf persist_diffs ks.2 nv
  | none => batch

/-- `batch_write_subspace_val`: read the current value, record the diff pair,
write the new value, and return the size difference. -/
def batch_write_subspace_val (db : DbState) (batch : Batch) (height : Nat)
    (key : DbKey) (value : Bytes) (persist_diffs : Bool) : Batch × Int :=
  match cfGet db.subspace key with
  | some old_value =>
    let size_diff : Int := (value.length : Int) - (old_value.length : Int)
    let batch := batch_write_subspace_diff batch height key (some old_value)
      (some value) persist_diffs
    (batch.putSubspace key value, size_diff)
  | none =>
    let batch := batch_write_subspace_diff batch height key none (some value)
      persist_diffs
    (batch.putSubspace key value, (value.length : Int))

/-- `batch_delete_subspace_val`: record the old value (if the key exists),
delete the subspace entry, and return the previous length. -/
def batch_delete_subspace_val (db : DbState) (batch : Batch) (height : Nat)
    (key : DbKey) (persist_diffs : Bool) : Batch × Int :=
  match cfGet db.subspace key with
  | some prev_value =>
    let batch := batch_write_subspace_diff batch height key (some prev_value)
      none persist_diffs
    (batch.delSubspace key, (prev_value.length : Int))
  | none => (batch.delSubspace key, 0)

/-- Does `pre` start the key? (segment-wise prefix test). -/
def segsPre : DbKey → DbKey → Bool
  | [], _ => true
  | _, [] => false
  | p :: ps, s :: ss => p = s && segsPre ps ss

/-- The keys of a column family that start with `pre` (the un-stripped
iteration used by `prune_non_persisted_diffs`). -/
def keysWithPre {α : Type} (cf : Cf α) (pre : DbKey) : List DbKey :=
  (cf.filter (fun e => segsPre pre e.1)).map (fun e => e.1)

/-- The entries of a column family that start with `pre`, with the matched
part stripped from the key (`iter_diffs_prefix` strips `<height>/<kind>/`). -/
def entriesWithPre {α : Type} (cf : Cf α) (pre : DbKey) : List (DbKey × α) :=
  cf.filterMap (fun e =>
    if segsPre pre e.1 then some (e.1.drop pre.length, e.2) else none)

/-- `prune_non_persisted_diffs`: delete every `<height>/old/*` and
`<height>/new/*` key from the rollback column family. -/
def prune_non_persisted_diffs (db : DbState) (batch : Batch) (height : Nat) : Batch :=
  let batch := (keysWithPre db.rollbackCf [Seg.nat height, Seg.str "old"]).foldl
    (fun b k => b.delRollback k) batch
  (keysWithPre db.rollbackCf [Seg.nat height, Seg.str "new"]).foldl
    (fun b k => b.delRollback k) batch

/-- `has_replay_protection_entry`: check the `last` and `all` buckets. -/
def has_replay_protection_entry (db : DbState) (hash : String) : Bool :=
  [lastKey hash, allKey hash].any (fun k => (cfGet db.replayProt k).isSome)

/- Block writer / reader. -/

/-- The reconstructed last-block record (`BlockStateRead`).  Fields the
storage engine never inspects keep their stored `Val`. -/
structure BlockStateRead where
  hash : Val
  height : Nat
  time : Val
  epoch : Nat
  pred_epochs : List (Nat × Nat)
  results : Val
  conversion_state : Val
  next_epoch_min_start_height : Val
  next_epoch_min_start_time : Val
  update_epoch_blocks_delay : Val
  address_gen : Val
  ethereum_height : Val
  eth_events_queue : Val
  commit_only_data : Val
deriving DecidableEq

/-- `read_last_block`: read the state and block singletons in the fixed
source order; the first missing one aborts with `none`. -/
def read_last_block (db : DbState) : Except DbErr (Option BlockStateRead) :=
  match read_value db.state kBlockHeight decNat with
  | .error e => .error e
  | .ok none => .ok none
  | .ok (some height) =>
  match read_value db.state kNextEpochMinStartHeight decAny with
  | .error e => .error e
  | .ok none => .ok none
  | .ok (some next_epoch_min_start_height) =>
  match read_value db.state kNextEpochMinStartTime decAny with
  | .error e => .error e
  | .ok none => .ok none
  | .ok (some next_epoch_min_start_time) =>
  match read_value db.state kUpdateEpochBlocksDelay decAny with
  | .error e => .error e
  | .ok none => .ok none
  | .ok (some update_epoch_blocks_delay) =>
  match read_value db.state kCommitOnlyData decAny with
  | .error e => .error e
  | .ok none => .ok none
  | .ok (some commit_only_data) =>
  match read_value db.state kConversionState decAny with
  | .error e => .error e
  | .ok none => .ok none
  | .ok (some conversion_state) =>
  match read_value db.state kEthereumHeight decAny with
  | .error e => .error e
  | .ok none => .ok none
  | .ok (some ethereum_height) =>
  match read_value db.state kEthEventsQueue decAny with
  | .error e => .error e
  | .ok none => .ok none
  | .ok (some eth_events_queue) =>
  match read_value db.block (resultsKey height) decAny with
  | .error e => .error e
  | .ok none => .ok none
  | .ok (some results) =>
  match read_value db.block (blockSegKey height "hash") decAny with
  | .error e => .error e
  | .ok none => .ok none
  | .ok (some hash) =>
  match read_value db.block (blockSegKey height "time") decAny with
  | .error e => .error e
  | .ok none => .ok none
  | .ok (some time) =>
  match read_value db.block (blockSegKey height "epoch") decNat with
  | .error e => .error e
  | .ok none => .ok none
  | .ok (some epoch) =>
  match read_value db.block (blockSegKey height "pred_epochs") decEpochs with
  | .error e => .error e
  | .ok none => .ok none
  | .ok (some pred_epochs) =>
  match read_value db.block (blockSegKey height "address_gen") decAny with
  | .error e => .error e
  | .ok none => .ok none
  | .ok (some address_gen) =>
    .ok (some { hash, height, time, epoch, pred_epochs, results,
                conversion_state, next_epoch_min_start_height,
                next_epoch_min_start_time, update_epoch_blocks_delay,
                address_gen, ethereum_height, eth_events_queue,
                commit_only_data })

/-- The block state handed to `add_block_to_batch` (`BlockStateWrite`).  The
Merkle tree stores are modelled by the root and encoded store per store
type. -/
structure BlockStateWrite where
  header : Option Val
  hash : Val
  height : Nat
  time : Val
  epoch : Nat
  pred_epochs : Val
  next_epoch_min_start_height : Val
  next_epoch_min_start_time : Val
  update_epoch_blocks_delay : Val
  address_gen : Val
  results : Val
  conversion_state : Val
  ethereum_height : Val
  eth_events_queue : Val
  commit_only_data : Val
  roots : StoreType → Val
  stores : StoreType → Bytes

/-- `add_state_value_to_batch`: copy the current value (if any) to the
`pred/` sibling, then put the new value. -/
def add_state_value_to_batch (db : DbState) (k : DbKey) (v : Val) (batch : Batch) :
    Batch :=
  let batch :=
    match cfGet db.state k with
    | some current_value => batch.putState (predKey k) current_value
    | none => batch
  batch.putState k v

/-- The key prefix selected for a store type: by height for `Base` and
`CommitData`, by epoch otherwise. -/
def merkleKeyPre (bsw : BlockStateWrite) (st : StoreType) : DbKey :=
  match st with
  | StoreType.Base => tree_key_pre_with_height st bsw.height
  | StoreType.CommitData => tree_key_pre_with_height st bsw.height
  | _ => tree_key_pre_with_epoch st bsw.epoch

/-- The Merkle-tree section of `add_block_to_batch`: `Base` and `CommitData`
are written every block keyed by height; every other store type is written
only on a full commit, keyed by epoch.  The list of store types iterated by
the source (`StoreType::iter()`) is a parameter. -/
def merkleTreeWrites (bsw : BlockStateWrite) (is_full_commit : Bool)
    (sts : List StoreType) (batch : Batch) : Batch :=
  sts.foldl (fun b st =>
    if st = StoreType.Base ∨ st = StoreType.CommitData ∨ is_full_commit = true then
      let key_pre := merkleKeyPre bsw st
      let b := b.putBlock (key_pre ++ [Seg.str "root"]) (bsw.roots st)
      b.putBlock (key_pre ++ [Seg.str "store"]) (Val.bytes (bsw.stores st))
    else b) batch

/-- `add_block_to_batch`: decompose a block record into state and block
column-family writes. -/
def add_block_to_batch (db : DbState) (bsw : BlockStateWrite)
    (sts : List StoreType) (is_full_commit : Bool) (batch : Batch) : Batch :=
  let batch := add_state_value_to_batch db kNextEpochMinStartHeight
    bsw.next_epoch_min_start_height batch
  let batch := add_state_value_to_batch db kNextEpochMinStartTime
    bsw.next_epoch_min_start_time batch
  let batch := add_state_value_to_batch db kUpdateEpochBlocksDelay
    bsw.update_epoch_blocks_delay batch
  let batch := add_state_value_to_batch db kCommitOnlyData
    bsw.commit_only_data batch
  let batch :=
    if is_full_commit then
      add_state_value_to_batch db kConversionState bsw.conversion_state batch
    else batch
  let batch := batch.putState kEthereumHeight bsw.ethereum_height
  let batch := batch.putState kEthEventsQueue bsw.eth_events_queue
  let batch := merkleTreeWrites bsw is_full_commit sts batch
  let batch :=
    match bsw.header with
    | some h => batch.putBlock (blockSegKey bsw.height "header") h
    | none => batch
  let batch := batch.putBlock (blockSegKey bsw.height "hash") bsw.hash
  let batch := batch.putBlock (blockSegKey bsw.height "time") bsw.time
  let batch := batch.putBlock (blockSegKey bsw.height "epoch") (Val.nat bsw.epoch)
  let batch := batch.putBlock (resultsKey bsw.height) bsw.results
  let batch := batch.putBlock (blockSegKey bsw.height "pred_epochs") bsw.pred_epochs
  let batch := batch.putBlock (blockSegKey bsw.height "address_gen") bsw.address_gen
  batch.putState kBlockHeight (Val.nat bsw.height)

/- Migration surface. -/

/-- The column-family selector of the migration surface (`DbColFam`). -/
inductive DbColFam where
  | SUBSPACE
  | DIFFS
  | ROLLBACK
  | STATE
  | BLOCK
  | REPLAYPROT
deriving DecidableEq

/-- `add_value_bytes_to_batch` through the selected column family; raw bytes
written into a typed family are stored as an opaque blob. -/
def Batch.putRaw (b : Batch) (cf : DbColFam) (k : DbKey) (v : Bytes) : Batch :=
  match cf with
  | .SUBSPACE => b.putSubspace k v
  | .DIFFS => b.putDiffs k v
  | .ROLLBACK => b.putRollback k v
  | .STATE => b.putState k (Val.bytes v)
  | .BLOCK => b.putBlock k (Val.bytes v)
  | .REPLAYPROT => b.putReplay k v

/-- The message of the `todo!` reached by `overwrite_entry` at a non-current
height (the source's wording, including its typo). -/
def overwriteTodoMsg : String :=
  "Overwriting values at heights different than the last committed height hast yet to be implemented"

/-- `overwrite_entry`: admin/migration write.  A requested height different
from the last committed one reaches a `todo!` panic; at the last height the
value is written into the selected column family and, for the subspace, the
`<height>/new/<key>` diff is written as well. -/
def overwrite_entry (db : DbState) (batch : Batch) (height : Option Nat)
    (cf : DbColFam) (key : DbKey) (new_value : Bytes) : Except DbErr Batch :=
  match read_value db.state kBlockHeight decNat with
  | .error e => .error e
  | .ok none => .error (DbErr.dbError "No block height found")
  | .ok (some last_height) =>
    let desired_height := height.getD last_height
    if desired_height ≠ last_height then
      .error (DbErr.panic overwriteTodoMsg)
    else
      let batch := batch.putRaw cf key new_value
      if cf = DbColFam.SUBSPACE then
        let diffs_key := [Seg.nat last_height, Seg.str "new"] ++ key
        .ok (batch.putDiffs diffs_key new_value)
      else
        .ok batch

/- Rollback engine. -/

/-- The four `pred/`-tracked metadata keys reverted first, in source order. -/
def metadataKeys : List DbKey :=
  [kNextEpochMinStartHeight, kNextEpochMinStartTime, kCommitOnlyData,
   kUpdateEpochBlocksDelay]

/-- Revert the tracked metadata keys from their `pred/` siblings; a missing
sibling aborts the rollback with an unknown-key error. -/
def restoreMetadataGo (db : DbState) : List DbKey → Batch → Except DbErr Batch
  | [], batch => Except.ok batch
  | mk :: rest, batch =>
    match cfGet db.state (predKey mk) with
    | none => Except.error (DbErr.unknownKey (predKey mk))
    | some previous_value => restoreMetadataGo db rest (batch.putState mk previous_value)

def restoreMetadata (db : DbState) (batch : Batch) : Except DbErr Batch :=
  restoreMetadataGo db metadataKeys batch

/-- Revert the conversion state from its `pred/` sibling when the epoch
changed at the last block. -/
def restoreConversionState (db : DbState) (lb : BlockStateRead)
    (previous_height : Nat) (batch : Batch) : Except DbErr Batch :=
  if getEpoch lb.pred_epochs previous_height ≠ some lb.epoch then
    match cfGet db.state (predKey kConversionState) with
    | none => Except.error (DbErr.unknownKey (predKey kConversionState))
    | some previous_value => Except.ok (batch.putState kConversionState previous_value)
  else Except.ok batch

/-- The hashes found under `last/` (`iter_replay_protection` strips the
bucket). -/
def lastHashes (db : DbState) : List String :=
  db.replayProt.filterMap (fun e =>
    match e.1 with
    | [Seg.str "last", Seg.str h] => some h
    | _ => none)

/-- The hashes found under `buffer/` (`iter_replay_protection_buffer`). -/
def bufferHashes (db : DbState) : List String :=
  db.replayProt.filterMap (fun e =>
    match e.1 with
    | [Seg.str "buffer", Seg.str h] => some h
    | _ => none)

/-- The replay-protection section of `rollback`: delete every `last/` hash,
then restore each `buffer/` hash into `last/` (empty value) and delete its
`all/` entry. -/
def replayRestore (db : DbState) (batch : Batch) : Batch :=
  let batch := (lastHashes db).foldl (fun b h => b.delReplay (lastKey h)) batch
  (bufferHashes db).foldl
    (fun b h => (b.putReplay (lastKey h) []).delReplay (allKey h)) batch

/-- The subspace scan of `rollback`: for every key currently in the
subspace, restore the value it had at the previous height, deleting keys
that were absent then.  The source runs this scan in parallel; the per-key
operations target distinct keys, so the list order models it. -/
def subspaceRestore (db : DbState) (previous_height last_height : Nat)
    (batch : Batch) : Batch :=
  db.subspace.foldl (fun b e =>
    match read_subspace_val_with_height db e.1 previous_height last_height with
    | some previous_value => b.putSubspace e.1 previous_value
    | none => b.delSubspace e.1) batch

/-- The diffs replay of `rollback`: for each `L/old/K` entry, restore the
value unless a subspace read of the composed key `L/new/K` finds something
(the source queries the subspace column family with the composed diff key,
which never holds such keys, so the restore is unconditional in effect;
this is kept as written). -/
def restoreDeletedDiffs (db : DbState) (last_height : Nat) (batch : Batch) : Batch :=
  (entriesWithPre db.diffs [Seg.nat last_height, Seg.str "old"]).foldl
    (fun b e =>
      let diff_new_key := [Seg.nat last_height, Seg.str "new"] ++ e.1
      if (read_subspace_val db diff_new_key).isNone then b.putSubspace e.1 e.2
      else b) batch

/-- The rollback-column-family replay of `rollback`: restore every old
value, then delete the keys that only have a new value (created in the last
block). -/
def rollbackCfRestore (db : DbState) (last_height : Nat) (batch : Batch) : Batch :=
  let oldEntries := entriesWithPre db.rollbackCf [Seg.nat last_height, Seg.str "old"]
  let keys_with_old_value : List DbKey := oldEntries.map (fun e => e.1)
  let batch := oldEntries.foldl (fun b e => b.putSubspace e.1 e.2) batch
  (entriesWithPre db.rollbackCf [Seg.nat last_height, Seg.str "new"]).foldl
    (fun b e => if e.1 ∈ keys_with_old_value then b else b.delSubspace e.1) batch

/-- Does the key start with the given height segment?  The source iterates
with the rendered height string as bound; all keys stored in the diffs and
block families start with a full height segment, for which the two
conditions agree. -/
def headIsHeight (h : Nat) (k : DbKey) : Bool :=
  match k with
  | Seg.nat n :: _ => n = h
  | _ => false

/-- The final section of `rollback`: delete every key prepended with the
last height from the diffs and block column families. -/
def deleteHeightPrepended (db : DbState) (last_height : Nat) (batch : Batch) : Batch :=
  let batch := (db.diffs.filter (fun e => headIsHeight last_height e.1)).foldl
    (fun b e => b.delDiffs e.1) batch
  (db.block.filter (fun e => headIsHeight last_height e.1)).foldl
    (fun b e => b.delBlock e.1) batch

/-- `rollback`: when the consensus height already matches the recorded last
height, do nothing; otherwise build and apply the single-step rollback
batch.  There is no distance check. -/
def rollback (db : DbState) (tendermint_block_height : Nat) : Except DbErr DbState :=
  match read_last_block db with
  | .error e => .error e
  | .ok none => .error (DbErr.dbError "Missing last block in storage")
  | .ok (some last_block) =>
    if tendermint_block_height = last_block.height then .ok db
    else
      let previous_height := prevHeight last_block.height
      let batch := Batch.empty.putState kBlockHeight (Val.nat previous_height)
      match restoreMetadata db batch with
      | .error e => .error e
      | .ok batch =>
        match restoreConversionState db last_block previous_height batch with
        | .error e => .error e
        | .ok batch =>
          let batch := batch.delBlock (resultsKey last_block.height)
          let batch := replayRestore db batch
          let batch := subspaceRestore db previous_height last_block.height batch
          let batch := restoreDeletedDiffs db last_block.height batch
          let batch := rollbackCfRestore db last_block.height batch
          let batch := deleteHeightPrepended db last_block.height batch
          .ok (execBatch db batch)

/- Specification-side descriptions used by the theorems. -/

deriving instance DecidableEq for Except

/-- The diff operations `batch_write_subspace_val` schedules: the old value
when the key exists, and always the new value. -/
def subspaceDiffOps (db : DbState) (height : Nat) (key : DbKey) (value : Bytes) :
    List (CfOp Bytes) :=
  match cfGet db.subspace key with
  | some old => [CfOp.put (oldDiffKey key height) old,
                 CfOp.put (newDiffKey key height) value]
  | none => [CfOp.put (newDiffKey key height) value]

/-- Are all fields required by `read_last_block` present?  The block fields
are looked up under the recorded height. -/
def presentAll (db : DbState) : Bool :=
  match (cfGet db.state kBlockHeight).bind decNat with
  | none => false
  | some h =>
    (cfGet db.state kNextEpochMinStartHeight).isSome &&
    (cfGet db.state kNextEpochMinStartTime).isSome &&
    (cfGet db.state kUpdateEpochBlocksDelay).isSome &&
    (cfGet db.state kCommitOnlyData).isSome &&
    (cfGet db.state kConversionState).isSome &&
    (cfGet db.state kEthereumHeight).isSome &&
    (cfGet db.state kEthEventsQueue).isSome &&
    (cfGet db.block (resultsKey h)).isSome &&
    (cfGet db.block (blockSegKey h "hash")).isSome &&
    (cfGet db.block (blockSegKey h "time")).isSome &&
    (cfGet db.block (blockSegKey h "epoch")).isSome &&
    (cfGet db.block (blockSegKey h "pred_epochs")).isSome &&
    (cfGet db.block (blockSegKey h "address_gen")).isSome

/-- Concatenation of per-element operation lists. -/
def opsConcat {β γ : Type} (g : β → List γ) : List β → List γ
  | [] => []
  | x :: rest => g x ++ opsConcat g rest

/-- The block-family operations of the Merkle section, per store type. -/
def merkleOps (bsw : BlockStateWrite) (is_full_commit : Bool)
    (sts : List StoreType) : List (CfOp Val) :=
  opsConcat (fun st =>
    if st = StoreType.Base ∨ st = StoreType.CommitData ∨ is_full_commit = true then
      let key_pre := merkleKeyPre bsw st
      [CfOp.put (key_pre ++ [Seg.str "root"]) (bsw.roots st),
       CfOp.put (key_pre ++ [Seg.str "store"]) (Val.bytes (bsw.stores st))]
    else []) sts

/-- The replay-protection operations scheduled by the rollback engine. -/
def replayRestoreOps (db : DbState) : List (CfOp Bytes) :=
  opsConcat (fun h => [CfOp.del (lastKey h)]) (lastHashes db) ++
  opsConcat (fun h => [CfOp.put (lastKey h) [], CfOp.del (allKey h)]) (bufferHashes db)

/- History model for the historic-read correctness statement: a per-key
sequence of block effects, one per height, as produced by
`batch_write_subspace_val` / `batch_delete_subspace_val` with persisted
diffs. -/

/-- One block's effect on a single subspace key. -/
inductive HOp where
  | write (v : Bytes)
  | del
deriving DecidableEq

/-- A history: the heights at which a key changed, with the change. -/
abbrev Hist := List (Nat × HOp)

def applyHOp : Option Bytes → HOp → Option Bytes
  | _, .write v => some v
  | _, .del => none

/-- The value of the key after all the changes strictly below height `h`. -/
def valLt (hist : Hist) (h : Nat) : Option Bytes :=
  hist.foldl (fun cur e => if e.1 < h then applyHOp cur e.2 else cur) none

/-- The value of the key after all the changes: the last value written, or
`none` if the key was deleted or never written. -/
def valAll (hist : Hist) : Option Bytes :=
  hist.foldl (fun cur e => applyHOp cur e.2) none

/-- The value of the key after all the changes at heights at most `H`: the
last value written at some height at most `H`, or `none` if the key was
deleted at or before `H` or never written by then. -/
def valLe (hist : Hist) (H : Nat) : Option Bytes :=
  valLt hist (H + 1)

/-- The change recorded at exactly height `h`, if any. -/
def histFind : Hist → Nat → Option HOp
  | [], _ => none
  | e :: rest, h => if e.1 = h then some e.2 else histFind rest h

def emptyDb : DbState := ⟨[], [], [], [], [], []⟩

/-- Commit one block effect through the subspace write path with persisted
diffs (`write_subspace_val` / `delete_subspace_val`). -/
def commitHOp (key : DbKey) (db : DbState) (e : Nat × HOp) : DbState :=
  match e.2 with
  | .write v => execBatch db (batch_write_subspace_val db Batch.empty e.1 key v true).1
  | .del => execBatch db (batch_delete_subspace_val db Batch.empty e.1 key true).1

/-- Commit a whole history starting from an empty database. -/
def commitHist (key : DbKey) (hist : Hist) : DbState :=
  hist.foldl (commitHOp key) emptyDb

/-- Heights of a history are strictly increasing. -/
abbrev sortedHist (hist : Hist) : Prop :=
  List.Pairwise (fun a b => a.1 < b.1) hist

/- Concrete states used to instantiate the theorems. -/

/-- A committed example state at last height 5: all block-record fields are
present, the `pred/` siblings exist, and the replay buckets hold hashes
`aa` (last), `bb` (buffer and all) and `cc` (all). -/
def exDb : DbState :=
  { state := [(kBlockHeight, Val.nat 5),
              (kNextEpochMinStartHeight, Val.nat 6),
              (kNextEpochMinStartTime, Val.nat 0),
              (kUpdateEpochBlocksDelay, Val.nat 0),
              (kCommitOnlyData, Val.bytes []),
              (kConversionState, Val.bytes [9]),
              (kEthereumHeight, Val.nat 0),
              (kEthEventsQueue, Val.bytes []),
              (predKey kNextEpochMinStartHeight, Val.nat 5),
              (predKey kNextEpochMinStartTime, Val.nat 0),
              (predKey kCommitOnlyData, Val.bytes []),
              (predKey kUpdateEpochBlocksDelay, Val.nat 0),
              (predKey kConversionState, Val.bytes [8])]
    subspace := [([Seg.str "acct"], [7])]
    diffs := [(newDiffKey [Seg.str "acct"] 5, [7]),
              (oldDiffKey [Seg.str "acct"] 5, [6])]
    rollbackCf := []
    block := [(resultsKey 5, Val.bytes []),
              (blockSegKey 5 "hash", Val.bytes [1]),
              (blockSegKey 5 "time", Val.bytes [2]),
              (blockSegKey 5 "epoch", Val.nat 1),
              (blockSegKey 5 "pred_epochs", Val.epochs [(0, 0), (3, 1)]),
              (blockSegKey 5 "address_gen", Val.bytes [3])]
    replayProt := [(lastKey "aa", []), (bufferKey "bb", []),
                   (allKey "bb", []), (allKey "cc", [])] }

/-- The last-block record read back from `exDb`. -/
def exLb : BlockStateRead :=
  { hash := Val.bytes [1]
    height := 5
    time := Val.bytes [2]
    epoch := 1
    pred_epochs := [(0, 0), (3, 1)]
    results := Val.bytes []
    conversion_state := Val.bytes [9]
    next_epoch_min_start_height := Val.nat 6
    next_epoch_min_start_time := Val.nat 0
    update_epoch_blocks_delay := Val.nat 0
    address_gen := Val.bytes [3]
    ethereum_height := Val.nat 0
    eth_events_queue := Val.bytes []
    commit_only_data := Val.bytes [] }

/-- The state produced by rolling `exDb` back (target height 3). -/
def exDbRolled : DbState := (rollback exDb 3).toOption.getD exDb

/-- The state produced by rolling `exDb` back (target height 4), for the
single-step theorem instance. -/
def exDbRolled4 : DbState := (rollback exDb 4).toOption.getD exDb

/-- A concrete block-state write used to instantiate the block-writer
theorem. -/
def exBsw : BlockStateWrite :=
  { header := none
    hash := Val.bytes [1]
    height := 9
    time := Val.bytes [2]
    epoch := 2
    pred_epochs := Val.epochs [(0, 0)]
    next_epoch_min_start_height := Val.nat 10
    next_epoch_min_start_time := Val.nat 0
    update_epoch_blocks_delay := Val.nat 0
    address_gen := Val.bytes [3]
    results := Val.bytes []
    conversion_state := Val.bytes [4]
    ethereum_height := Val.nat 0
    eth_events_queue := Val.bytes []
    commit_only_data := Val.bytes []
    roots := fun _ => Val.bytes [5]
    stores := fun _ => [6] }

/- Basic column-family lemmas. -/

theorem cfGet_put {α : Type} (cf : Cf α) (k k2 : DbKey) (v : α) :
    cfGet (applyCfOp cf (CfOp.put k v)) k2 = if k = k2 then some v else cfGet cf k2 := by
  simp [applyCfOp, cfGet]

theorem cfGet_del {α : Type} (cf : Cf α) (k k2 : DbKey) :
    cfGet (applyCfOp cf (CfOp.del k)) k2 = if k = k2 then none else cfGet cf k2 := by
  simp only [applyCfOp]
  induction cf with
  | nil => simp [cfGet]
  | cons e rest ih =>
    by_cases hek : e.1 = k
    · rw [List.filter_cons_of_neg (by simp [hek])]
      rw [ih]
      by_cases hkk : k = k2
      · simp [hkk]
      · have : ¬ e.1 = k2 := by rw [hek]; exact hkk
        simp [cfGet, hkk, this]
    · rw [List.filter_cons_of_pos (by simp [hek])]
      by_cases hek2 : e.1 = k2
      · have hkk : ¬ k = k2 := fun h => hek (h ▸ hek2)
        simp [cfGet, hek2, hkk]
      · simp only [cfGet, if_neg hek2]
        exact ih

theorem applyCfOps_append {α : Type} (cf : Cf α) (a b : List (CfOp α)) :
    applyCfOps cf (a ++ b) = applyCfOps (applyCfOps cf a) b := by
  simp [applyCfOps, List.foldl_append]

theorem cfGet_applyCfOp_other {α : Type} (cf : Cf α) (op : CfOp α) (k : DbKey)
    (h : op.key ≠ k) : cfGet (applyCfOp cf op) k = cfGet cf k := by
  cases op with
  | put k2 v => rw [cfGet_put]; simp [CfOp.key] at h; simp [h]
  | del k2 => rw [cfGet_del]; simp [CfOp.key] at h; simp [h]

theorem cfGet_applyCfOps_other {α : Type} (cf : Cf α) (ops : List (CfOp α)) (k : DbKey)
    (h : ∀ op ∈ ops, op.key ≠ k) : cfGet (applyCfOps cf ops) k = cfGet cf k := by
  induction ops generalizing cf with
  | nil => simp [applyCfOps]
  | cons op rest ih =>
    have h1 : op.key ≠ k := h op (by simp)
    have h2 : ∀ o ∈ rest, CfOp.key o ≠ k := fun o ho => h o (by simp [ho])
    simp only [applyCfOps, List.foldl_cons]
    rw [show List.foldl applyCfOp (applyCfOp cf op) rest = applyCfOps (applyCfOp cf op) rest from rfl,
      ih _ h2, cfGet_applyCfOp_other _ _ _ h1]

theorem cfGet_applyCfOps_none {α : Type} (cf : Cf α) (ops : List (CfOp α)) (k : DbKey)
    (hput : ∀ v, CfOp.put k v ∉ ops) (h0 : cfGet cf k = none) :
    cfGet (applyCfOps cf ops) k = none := by
  induction ops generalizing cf with
  | nil => simpa [applyCfOps]
  | cons op rest ih =>
    simp only [applyCfOps, List.foldl_cons]
    rw [show List.foldl applyCfOp (applyCfOp cf op) rest = applyCfOps (applyCfOp cf op) rest from rfl]
    refine ih _ (fun v hv => hput v (by simp [hv])) ?_
    cases op with
    | put k2 v =>
      rw [cfGet_put]
      have : k2 ≠ k := fun hk => hput v (by simp [hk])
      simp [this, h0]
    | del k2 => rw [cfGet_del]; split <;> simp [h0]

theorem cfGet_applyCfOps_del_mem {α : Type} (cf : Cf α) (ops : List (CfOp α)) (k : DbKey)
    (hput : ∀ v, CfOp.put k v ∉ ops) (hdel : CfOp.del k ∈ ops) :
    cfGet (applyCfOps cf ops) k = none := by
  induction ops generalizing cf with
  | nil => simp at hdel
  | cons op rest ih =>
    simp only [applyCfOps, List.foldl_cons]
    rw [show List.foldl applyCfOp (applyCfOp cf op) rest = applyCfOps (applyCfOp cf op) rest from rfl]
    rcases List.mem_cons.mp hdel with heq | hmem
    · by_cases hrest : CfOp.del k ∈ rest
      · exact ih _ (fun v hv => hput v (by simp [hv])) hrest
      · refine cfGet_applyCfOps_none _ _ _ (fun v hv => hput v (by simp [hv])) ?_
        rw [← heq, cfGet_del]; simp
    · exact ih _ (fun v hv => hput v (by simp [hv])) hmem

/- Key disjointness facts. -/

theorem oldDiffKey_ne_newDiffKey (k1 k2 : DbKey) (a b : Nat) :
    oldDiffKey k1 a ≠ newDiffKey k2 b := by
  simp [oldDiffKey, newDiffKey, old_and_new_diff_key]

theorem oldDiffKey_height_inj (k : DbKey) (a b : Nat) :
    oldDiffKey k a = oldDiffKey k b ↔ a = b := by
  simp [oldDiffKey, old_and_new_diff_key]

theorem newDiffKey_height_inj (k : DbKey) (a b : Nat) :
    newDiffKey k a = newDiffKey k b ↔ a = b := by
  simp [newDiffKey, old_and_new_diff_key]

theorem lastKey_inj (a b : String) : lastKey a = lastKey b ↔ a = b := by
  simp [lastKey]

theorem lastKey_ne_allKey (a b : String) : lastKey a ≠ allKey b := by
  simp [lastKey, allKey]

theorem bufferKey_ne_lastKey (a b : String) : bufferKey a ≠ lastKey b := by
  simp [bufferKey, lastKey]

theorem bufferKey_ne_allKey (a b : String) : bufferKey a ≠ allKey b := by
  simp [bufferKey, allKey]

/- C10 and C8. -/

/-- C10: deleting a subspace key that is absent from the subspace column
family returns 0 and schedules only the subspace delete: no `H/old/K` or
`H/new/K` entry is added to the diffs or rollback column families. -/
theorem batch_delete_subspace_val_absent (db : DbState) (batch : Batch)
    (height : Nat) (key : DbKey) (persist_diffs : Bool)
    (habs : cfGet db.subspace key = none) :
    batch_delete_subspace_val db batch height key persist_diffs =
      ({ batch with subspace := batch.subspace ++ [CfOp.del key] }, 0) := by
  simp [batch_delete_subspace_val, habs, Batch.delSubspace]

/-- Witness for the absent-key delete theorem at a concrete input. -/
theorem batch_delete_subspace_val_absent_witness :
    cfGet emptyDb.subspace [Seg.str "k"] = none ∧
    batch_delete_subspace_val emptyDb Batch.empty 3 [Seg.str "k"] true =
      ({ Batch.empty with subspace := Batch.empty.subspace ++ [CfOp.del [Seg.str "k"]] }, 0) :=
  ⟨by decide, batch_delete_subspace_val_absent emptyDb Batch.empty 3 [Seg.str "k"] true (by decide)⟩

/-- C8: `has_replay_protection_entry` holds exactly when the hash is present
under `last/` or `all/`; adding or removing the `buffer/` entry of the hash
does not change the answer. -/
theorem has_replay_protection_entry_spec (db : DbState) (h : String) (v : Bytes) :
    (has_replay_protection_entry db h = true ↔
      (cfGet db.replayProt (lastKey h)).isSome = true ∨
      (cfGet db.replayProt (allKey h)).isSome = true)
    ∧ has_replay_protection_entry
        { db with replayProt := applyCfOp db.replayProt (CfOp.put (bufferKey h) v) } h =
        has_replay_protection_entry db h
    ∧ has_replay_protection_entry
        { db with replayProt := applyCfOp db.replayProt (CfOp.del (bufferKey h)) } h =
        has_replay_protection_entry db h := by
  refine ⟨?_, ?_, ?_⟩
  · simp [has_replay_protection_entry]
  · simp [has_replay_protection_entry, cfGet_put,
      (bufferKey_ne_lastKey h h : bufferKey h ≠ lastKey h),
      (bufferKey_ne_allKey h h : bufferKey h ≠ allKey h)]
  · simp [has_replay_protection_entry, cfGet_del,
      (bufferKey_ne_lastKey h h : bufferKey h ≠ lastKey h),
      (bufferKey_ne_allKey h h : bufferKey h ≠ allKey h)]

/- C4: batch_write_subspace_val. -/

/-- C4: `batch_write_subspace_val` schedules the diff operations into the
diffs column family when diffs are persisted and into the rollback column
family otherwise, schedules the subspace put, and returns the length
difference against the current value (the full length when the key is
created); the old diff is scheduled exactly when the key currently exists,
and the new diff always. -/
theorem batch_write_subspace_val_spec (db : DbState) (batch : Batch) (height : Nat)
    (key : DbKey) (value : Bytes) (persist_diffs : Bool) :
    batch_write_subspace_val db batch height key value persist_diffs =
      ({ batch with
          subspace := batch.subspace ++ [CfOp.put key value],
          diffs := batch.diffs ++
            (if persist_diffs then subspaceDiffOps db height key value else []),
          rollbackCf := batch.rollbackCf ++
            (if persist_diffs then [] else subspaceDiffOps db height key value) },
        (value.length : Int) -
          (match cfGet db.subspace key with
           | some old => (old.length : Int)
           | none => 0))
    ∧ CfOp.put (newDiffKey key height) value ∈ subspaceDiffOps db height key value
    ∧ ((∃ ov, CfOp.put (oldDiffKey key height) ov ∈ subspaceDiffOps db height key value) ↔
        (cfGet db.subspace key).isSome = true) := by
  refine ⟨?_, ?_, ?_⟩
  · cases hv : cfGet db.subspace key with
    | some old =>
      cases persist_diffs <;>
        simp [batch_write_subspace_val, hv, batch_write_subspace_diff,
          Batch.putDiffCf, Batch.putDiffs, Batch.putRollback, Batch.putSubspace,
          subspaceDiffOps, oldDiffKey, newDiffKey]
    | none =>
      cases persist_diffs <;>
        simp [batch_write_subspace_val, hv, batch_write_subspace_diff,
          Batch.putDiffCf, Batch.putDiffs, Batch.putRollback, Batch.putSubspace,
          subspaceDiffOps, oldDiffKey, newDiffKey]
  · cases hv : cfGet db.subspace key <;> simp [subspaceDiffOps, hv]
  · cases hv : cfGet db.subspace key with
    | some old =>
      simp [subspaceDiffOps, hv]
    | none =>
      simp [subspaceDiffOps, hv, oldDiffKey, newDiffKey, old_and_new_diff_key]

/- C9: prune_non_persisted_diffs. -/

theorem segsPre_append (pre rest : DbKey) : segsPre pre (pre ++ rest) = true := by
  induction pre with
  | nil => simp [segsPre]
  | cons p ps ih => simp [segsPre, ih]

theorem keysWithPre_cons {α : Type} (e : DbKey × α) (rest : Cf α) (pre : DbKey) :
    keysWithPre (e :: rest) pre =
      if segsPre pre e.1 then e.1 :: keysWithPre rest pre else keysWithPre rest pre := by
  simp only [keysWithPre, List.filter_cons]
  split <;> simp

theorem cfGet_some_mem_keysWithPre {α : Type} (cf : Cf α) (pre k : DbKey) (v : α)
    (hg : cfGet cf k = some v) (hp : segsPre pre k = true) : k ∈ keysWithPre cf pre := by
  induction cf with
  | nil => simp [cfGet] at hg
  | cons e rest ih =>
    rw [keysWithPre_cons]
    by_cases he : e.1 = k
    · rw [he, if_pos hp]
      exact List.mem_cons_self _ _
    · rw [cfGet] at hg
      rw [if_neg he] at hg
      split
      · exact List.mem_cons_of_mem _ (ih hg)
      · exact ih hg

theorem segsPre_of_mem_keysWithPre {α : Type} (cf : Cf α) (pre k : DbKey)
    (h : k ∈ keysWithPre cf pre) : segsPre pre k = true := by
  induction cf with
  | nil => simp [keysWithPre] at h
  | cons e rest ih =>
    rw [keysWithPre_cons] at h
    by_cases hp : segsPre pre e.1
    · rw [if_pos hp] at h
      rcases List.mem_cons.mp h with heq | hmem
      · rw [heq]; exact hp
      · exact ih hmem
    · rw [if_neg hp] at h
      exact ih h

theorem segsPre_two_shape (a b : Seg) (k : DbKey) (h : segsPre [a, b] k = true) :
    ∃ rest, k = a :: b :: rest := by
  match k with
  | [] => simp [segsPre] at h
  | [x] => simp [segsPre] at h
  | x :: y :: rest =>
    simp only [segsPre, Bool.and_eq_true, decide_eq_true_eq] at h
    exact ⟨rest, by rw [h.1, h.2.1]⟩

theorem put_not_mem_map_del {α : Type} (ks : List DbKey) (k : DbKey) (v : α) :
    CfOp.put k v ∉ ks.map CfOp.del := by
  intro h
  rcases List.mem_map.mp h with ⟨x, _, hx⟩
  exact CfOp.noConfusion hx

theorem foldl_delRollback_ops (ks : List DbKey) (batch : Batch) :
    (ks.foldl (fun b k => b.delRollback k) batch).rollbackCf =
      batch.rollbackCf ++ ks.map CfOp.del := by
  induction ks generalizing batch with
  | nil => simp
  | cons x rest ih =>
    rw [List.foldl_cons, ih]
    simp [Batch.delRollback, List.append_assoc]

/-- C9: after executing the batch produced by `prune_non_persisted_diffs` at
height `H`, the rollback column family holds no `H/old/K` and no `H/new/K`
entry for any key, and every key not prepended with `H` is unaffected. -/
theorem prune_non_persisted_diffs_spec (db : DbState) (height : Nat) (key k : DbKey) :
    cfGet (execBatch db (prune_non_persisted_diffs db Batch.empty height)).rollbackCf
        (oldDiffKey key height) = none
    ∧ cfGet (execBatch db (prune_non_persisted_diffs db Batch.empty height)).rollbackCf
        (newDiffKey key height) = none
    ∧ (headIsHeight height k = false →
        cfGet (execBatch db (prune_non_persisted_diffs db Batch.empty height)).rollbackCf k
          = cfGet db.rollbackCf k) := by
  have hops : (prune_non_persisted_diffs db Batch.empty height).rollbackCf =
      (keysWithPre db.rollbackCf [Seg.nat height, Seg.str "old"]).map CfOp.del ++
      (keysWithPre db.rollbackCf [Seg.nat height, Seg.str "new"]).map CfOp.del := by
    simp [prune_non_persisted_diffs, foldl_delRollback_ops, Batch.empty]
  have hexec : (execBatch db (prune_non_persisted_diffs db Batch.empty height)).rollbackCf =
      applyCfOps db.rollbackCf
        ((keysWithPre db.rollbackCf [Seg.nat height, Seg.str "old"]).map CfOp.del ++
         (keysWithPre db.rollbackCf [Seg.nat height, Seg.str "new"]).map CfOp.del) := by
    simp [execBatch, hops]
  have hput : ∀ (kk : DbKey) (v : Bytes), CfOp.put kk v ∉
      ((keysWithPre db.rollbackCf [Seg.nat height, Seg.str "old"]).map CfOp.del ++
       (keysWithPre db.rollbackCf [Seg.nat height, Seg.str "new"]).map CfOp.del) := by
    intro kk v hmem
    rcases List.mem_append.mp hmem with hm | hm
    · exact put_not_mem_map_del _ _ _ hm
    · exact put_not_mem_map_del _ _ _ hm
  refine ⟨?_, ?_, ?_⟩
  · rw [hexec]
    cases hv : cfGet db.rollbackCf (oldDiffKey key height) with
    | none => exact cfGet_applyCfOps_none _ _ _ (fun v => hput _ v) hv
    | some v =>
      refine cfGet_applyCfOps_del_mem _ _ _ (fun v => hput _ v) ?_
      refine List.mem_append.mpr (Or.inl ?_)
      refine List.mem_map.mpr ⟨_, ?_, rfl⟩
      exact cfGet_some_mem_keysWithPre _ _ _ _ hv
        (by simpa [oldDiffKey, old_and_new_diff_key] using
          segsPre_append [Seg.nat height, Seg.str "old"] key)
  · rw [hexec]
    cases hv : cfGet db.rollbackCf (newDiffKey key height) with
    | none => exact cfGet_applyCfOps_none _ _ _ (fun v => hput _ v) hv
    | some v =>
      refine cfGet_applyCfOps_del_mem _ _ _ (fun v => hput _ v) ?_
      refine List.mem_append.mpr (Or.inr ?_)
      refine List.mem_map.mpr ⟨_, ?_, rfl⟩
      exact cfGet_some_mem_keysWithPre _ _ _ _ hv
        (by simpa [newDiffKey, old_and_new_diff_key] using
          segsPre_append [Seg.nat height, Seg.str "new"] key)
  · intro hk
    rw [hexec]
    refine cfGet_applyCfOps_other _ _ _ ?_
    intro op hop
    rcases List.mem_append.mp hop with hm | hm <;>
    · rcases List.mem_map.mp hm with ⟨x, hx, hxop⟩
      have hpre := segsPre_of_mem_keysWithPre _ _ _ hx
      rcases segsPre_two_shape _ _ _ hpre with ⟨rest, hrest⟩
      intro hkey
      rw [← hxop] at hkey
      simp only [CfOp.key] at hkey
      rw [← hkey, hrest] at hk
      simp [headIsHeight] at hk

/-- Witness for the pruning theorem at a concrete input (the third conjunct
has a hypothesis): the rollback column family of the pruned state keeps the
entry of a different height. -/
theorem prune_non_persisted_diffs_spec_witness :
    headIsHeight 7 (oldDiffKey [Seg.str "x"] 3) = false ∧
    cfGet (execBatch
        { emptyDb with rollbackCf := [(oldDiffKey [Seg.str "x"] 7, [1]),
                                      (oldDiffKey [Seg.str "x"] 3, [2])] }
        (prune_non_persisted_diffs
          { emptyDb with rollbackCf := [(oldDiffKey [Seg.str "x"] 7, [1]),
                                        (oldDiffKey [Seg.str "x"] 3, [2])] }
          Batch.empty 7)).rollbackCf (oldDiffKey [Seg.str "x"] 3) =
      cfGet ({ emptyDb with rollbackCf := [(oldDiffKey [Seg.str "x"] 7, [1]),
                                           (oldDiffKey [Seg.str "x"] 3, [2])] } : DbState).rollbackCf
        (oldDiffKey [Seg.str "x"] 3) :=
  ⟨by decide,
   (prune_non_persisted_diffs_spec
     { emptyDb with rollbackCf := [(oldDiffKey [Seg.str "x"] 7, [1]),
                                   (oldDiffKey [Seg.str "x"] 3, [2])] }
     7 [Seg.str "x"] (oldDiffKey [Seg.str "x"] 3)).2.2 (by decide)⟩

/- C5: read_last_block. -/

theorem read_value_eq_ok_none {α : Type} (cf : Cf Val) (k : DbKey) (dec : Val → Option α) :
    read_value cf k dec = .ok none ↔ cfGet cf k = none := by
  unfold read_value
  cases h : cfGet cf k with
  | none => simp
  | some v => cases hd : dec v <;> simp [hd]

theorem read_value_eq_ok_some {α : Type} (cf : Cf Val) (k : DbKey) (dec : Val → Option α)
    (a : α) : read_value cf k dec = .ok (some a) ↔ (cfGet cf k).bind dec = some a := by
  unfold read_value
  cases h : cfGet cf k with
  | none => simp
  | some v => cases hd : dec v <;> simp [hd]

theorem bind_decNat_eq_some (o : Option Val) (n : Nat) :
    o.bind decNat = some n ↔ o = some (Val.nat n) := by
  cases o with
  | none => simp
  | some v => cases v <;> simp [decNat]

theorem bind_decEpochs_eq_some (o : Option Val) (m : List (Nat × Nat)) :
    o.bind decEpochs = some m ↔ o = some (Val.epochs m) := by
  cases o with
  | none => simp
  | some v => cases v <;> simp [decEpochs]

theorem bind_decAny_eq_some (o : Option Val) (a : Val) :
    o.bind decAny = some a ↔ o = some a := by
  cases o <;> simp [decAny]

theorem decNat_nat (n : Nat) : decNat (Val.nat n) = some n := rfl

/-- C5: when `read_last_block` does not fail, it returns `Some` exactly when
all of the required state and block fields are present; a single missing
field yields `None` with no partial reconstruction. -/
theorem read_last_block_some_iff (db : DbState) (r : Option BlockStateRead)
    (h : read_last_block db = .ok r) : r.isSome = presentAll db := by
  unfold read_last_block at h
  repeat' split at h
  all_goals simp_all [read_value_eq_ok_none, read_value_eq_ok_some, presentAll,
    bind_decNat_eq_some, bind_decEpochs_eq_some, bind_decAny_eq_some, decNat_nat]
  all_goals rw [← h, Option.isSome_some]

/-- Witness for the `read_last_block` theorem at the concrete example
state. -/
theorem read_last_block_some_iff_witness :
    read_last_block exDb = Except.ok (some exLb) ∧
    (some exLb).isSome = presentAll exDb :=
  ⟨by decide, read_last_block_some_iff exDb (some exLb) (by decide)⟩

/- C7: overwrite_entry. -/

/-- C7 counterexample: at a height argument different from the last committed
height (5 in `exDb`), `overwrite_entry` does not return an
`UnsupportedHeight` error — no such error exists in the code — it reaches
the `todo!` panic. -/
theorem overwrite_entry_panics_not_errors :
    overwrite_entry exDb Batch.empty (some 3) DbColFam.SUBSPACE [Seg.str "k"] [] =
      Except.error (DbErr.panic overwriteTodoMsg) := by decide

/-- C7 (amended): when the height argument is present and differs from the
last committed height, `overwrite_entry` panics with the unimplemented
`todo!` (rather than returning an error); when overwriting a subspace key at
the last committed height it writes the value and additionally the
`<H>/new/<K>` entry into the diffs column family. -/
theorem overwrite_entry_spec (db : DbState) (batch : Batch) (hOpt : Option Nat)
    (cf : DbColFam) (key : DbKey) (v : Bytes) (L : Nat)
    (hL : read_value db.state kBlockHeight decNat = .ok (some L)) :
    (∀ hh, hOpt = some hh → hh ≠ L →
        overwrite_entry db batch hOpt cf key v = .error (DbErr.panic overwriteTodoMsg))
    ∧ (hOpt = some L ∨ hOpt = none → cf = DbColFam.SUBSPACE →
        overwrite_entry db batch hOpt cf key v =
          .ok ((batch.putSubspace key v).putDiffs ([Seg.nat L, Seg.str "new"] ++ key) v)) := by
  constructor
  · intro hh heq hne
    simp [overwrite_entry, hL, heq, Option.getD, hne]
  · intro hopt hcf
    rcases hopt with heq | heq <;>
      simp [overwrite_entry, hL, heq, hcf, Option.getD, Batch.putRaw]

/-- Witness for the amended `overwrite_entry` theorem: a subspace overwrite
at the current height writes the diffs entry. -/
theorem overwrite_entry_spec_witness :
    read_value exDb.state kBlockHeight decNat = Except.ok (some 5) ∧
    overwrite_entry exDb Batch.empty (some 5) DbColFam.SUBSPACE [Seg.str "k"] [1] =
      Except.ok ((Batch.empty.putSubspace [Seg.str "k"] [1]).putDiffs
        ([Seg.nat 5, Seg.str "new"] ++ [Seg.str "k"]) [1]) :=
  ⟨by decide, (overwrite_entry_spec exDb Batch.empty (some 5) DbColFam.SUBSPACE
     [Seg.str "k"] [1] 5 (by decide)).2 (Or.inl rfl) rfl⟩

/- C6: Merkle persistence in add_block_to_batch. -/

theorem mem_opsConcat {β γ : Type} (g : β → List γ) (l : List β) (y : γ) :
    y ∈ opsConcat g l ↔ ∃ x ∈ l, y ∈ g x := by
  induction l with
  | nil => simp [opsConcat]
  | cons x rest ih => simp [opsConcat, ih]

theorem add_state_value_to_batch_block (db : DbState) (k : DbKey) (v : Val) (b : Batch) :
    (add_state_value_to_batch db k v b).block = b.block := by
  unfold add_state_value_to_batch
  cases cfGet db.state k <;> simp [Batch.putState]

theorem merkleTreeWrites_block (bsw : BlockStateWrite) (fc : Bool)
    (sts : List StoreType) (batch : Batch) :
    (merkleTreeWrites bsw fc sts batch).block = batch.block ++ merkleOps bsw fc sts := by
  induction sts generalizing batch with
  | nil => simp [merkleTreeWrites, merkleOps, opsConcat]
  | cons s rest ih =>
    simp only [merkleTreeWrites, List.foldl_cons] at ih ⊢
    rw [ih]
    by_cases hcond : s = StoreType.Base ∨ s = StoreType.CommitData ∨ fc = true
    · simp only [if_pos hcond, merkleOps, opsConcat, if_pos hcond, Batch.putBlock]
      simp [merkleOps, List.append_assoc]
    · simp only [if_neg hcond, merkleOps, opsConcat, if_neg hcond]
      simp [merkleOps]

theorem add_block_to_batch_block (db : DbState) (bsw : BlockStateWrite)
    (sts : List StoreType) (fc : Bool) (batch : Batch) :
    (add_block_to_batch db bsw sts fc batch).block =
      batch.block ++ merkleOps bsw fc sts ++
      (match bsw.header with
       | some h => [CfOp.put (blockSegKey bsw.height "header") h]
       | none => []) ++
      [CfOp.put (blockSegKey bsw.height "hash") bsw.hash,
       CfOp.put (blockSegKey bsw.height "time") bsw.time,
       CfOp.put (blockSegKey bsw.height "epoch") (Val.nat bsw.epoch),
       CfOp.put (resultsKey bsw.height) bsw.results,
       CfOp.put (blockSegKey bsw.height "pred_epochs") bsw.pred_epochs,
       CfOp.put (blockSegKey bsw.height "address_gen") bsw.address_gen] := by
  cases fc <;> cases hh : bsw.header <;>
    simp [add_block_to_batch, hh, add_state_value_to_batch_block,
      merkleTreeWrites_block, Batch.putState, Batch.putBlock, List.append_assoc]

theorem mem_merkleOps (bsw : BlockStateWrite) (fc : Bool) (sts : List StoreType)
    (st : StoreType) (hst : st ∈ sts)
    (hcond : st = StoreType.Base ∨ st = StoreType.CommitData ∨ fc = true) :
    CfOp.put (merkleKeyPre bsw st ++ [Seg.str "root"]) (bsw.roots st)
        ∈ merkleOps bsw fc sts ∧
    CfOp.put (merkleKeyPre bsw st ++ [Seg.str "store"])
        (Val.bytes (bsw.stores st)) ∈ merkleOps bsw fc sts := by
  constructor <;>
  · rw [merkleOps, mem_opsConcat]
    refine ⟨st, hst, ?_⟩
    rw [if_pos hcond]
    simp

/-- C6: for every store type `st` the writer iterates: `Base` and
`CommitData` are written (root and store) on every block keyed by the block
height; any other store type is written keyed by the epoch exactly on
full-commit blocks, and on a non-full commit no block-family operation
mentions `st` at all. -/
theorem add_block_to_batch_merkle_spec (db : DbState) (bsw : BlockStateWrite)
    (sts : List StoreType) (fc : Bool) (st : StoreType) (hst : st ∈ sts) :
    ((st = StoreType.Base ∨ st = StoreType.CommitData) →
       CfOp.put (tree_key_pre_with_height st bsw.height ++ [Seg.str "root"]) (bsw.roots st)
         ∈ (add_block_to_batch db bsw sts fc Batch.empty).block ∧
       CfOp.put (tree_key_pre_with_height st bsw.height ++ [Seg.str "store"])
         (Val.bytes (bsw.stores st))
         ∈ (add_block_to_batch db bsw sts fc Batch.empty).block)
    ∧ (st ≠ StoreType.Base → st ≠ StoreType.CommitData → fc = true →
       CfOp.put (tree_key_pre_with_epoch st bsw.epoch ++ [Seg.str "root"]) (bsw.roots st)
         ∈ (add_block_to_batch db bsw sts fc Batch.empty).block ∧
       CfOp.put (tree_key_pre_with_epoch st bsw.epoch ++ [Seg.str "store"])
         (Val.bytes (bsw.stores st))
         ∈ (add_block_to_batch db bsw sts fc Batch.empty).block)
    ∧ (fc = false → st ≠ StoreType.Base → st ≠ StoreType.CommitData →
       ∀ op ∈ (add_block_to_batch db bsw sts fc Batch.empty).block,
         Seg.store st ∉ op.key) := by
  refine ⟨?_, ?_, ?_⟩
  · intro hbc
    have h := mem_merkleOps bsw fc sts st hst (by tauto)
    have hmatch : merkleKeyPre bsw st = tree_key_pre_with_height st bsw.height := by
      rcases hbc with hb | hc
      · rw [hb]; rfl
      · rw [hc]; rfl
    rw [hmatch] at h
    rw [add_block_to_batch_block]
    constructor <;> simp [h.1, h.2]
  · intro hb hc hfc
    have h := mem_merkleOps bsw fc sts st hst (by tauto)
    have hmatch : merkleKeyPre bsw st = tree_key_pre_with_epoch st bsw.epoch := by
      cases st with
      | Base => exact absurd rfl hb
      | CommitData => exact absurd rfl hc
      | other n => rfl
    rw [hmatch] at h
    rw [add_block_to_batch_block]
    constructor <;> simp [h.1, h.2]
  · intro hfc hb hc op hop
    rw [add_block_to_batch_block] at hop
    subst hfc
    simp only [Batch.empty, List.nil_append, List.mem_append] at hop
    rcases hop with (hm | hh) | htail
    · rw [merkleOps, mem_opsConcat] at hm
      rcases hm with ⟨s, hs, hop⟩
      by_cases hcond : s = StoreType.Base ∨ s = StoreType.CommitData ∨ (false : Bool) = true
      · rw [if_pos hcond] at hop
        have hsne : s ≠ st := by
          rcases hcond with h1 | h1 | h1
          · rw [h1]; exact fun hx => hb hx.symm
          · rw [h1]; exact fun hx => hc hx.symm
          · exact absurd h1 (by simp)
        have hkey : op.key = merkleKeyPre bsw s ++ [Seg.str "root"] ∨
            op.key = merkleKeyPre bsw s ++ [Seg.str "store"] := by
          rcases List.mem_cons.mp hop with he | he
          · left; rw [he]; rfl
          · right
            rcases List.mem_singleton.mp he with he2
            rw [he2]; rfl
        have hnostore : Seg.store st ∉ merkleKeyPre bsw s ++ [Seg.str "root"] ∧
            Seg.store st ∉ merkleKeyPre bsw s ++ [Seg.str "store"] := by
          cases s with
          | Base =>
            simp [merkleKeyPre, tree_key_pre_with_height, hb]
          | CommitData =>
            simp [merkleKeyPre, tree_key_pre_with_height, hc]
          | other n =>
            simp [merkleKeyPre, tree_key_pre_with_epoch,
              show ¬ st = StoreType.other n from fun hx => hsne hx.symm]
        rcases hkey with hk | hk <;> rw [hk]
        · exact hnostore.1
        · exact hnostore.2
      · rw [if_neg hcond] at hop
        simp at hop
    · rcases hhdr : bsw.header with _ | hv
      · rw [hhdr] at hh; simp at hh
      · rw [hhdr] at hh
        rcases List.mem_singleton.mp hh with he
        rw [he]
        simp [CfOp.key, blockSegKey]
    · fin_cases htail <;> simp [CfOp.key, blockSegKey, resultsKey]

/-- Witness for the Merkle-persistence theorem: on a non-full commit, the
`Base` store is still written keyed by height. -/
theorem add_block_to_batch_merkle_spec_witness :
    CfOp.put (tree_key_pre_with_height StoreType.Base exBsw.height ++ [Seg.str "root"])
        (exBsw.roots StoreType.Base)
      ∈ (add_block_to_batch emptyDb exBsw [StoreType.Base, StoreType.other 0] false
          Batch.empty).block :=
  ((add_block_to_batch_merkle_spec emptyDb exBsw [StoreType.Base, StoreType.other 0]
      false StoreType.Base (by decide)).1 (Or.inl rfl)).1

/- Rollback batch plumbing. -/

theorem foldl_proj_const {β γ : Type} (proj : Batch → γ) (f : Batch → β → Batch)
    (l : List β) (batch : Batch) (hf : ∀ b x, proj (f b x) = proj b) :
    proj (l.foldl f batch) = proj batch := by
  induction l generalizing batch with
  | nil => rfl
  | cons x rest ih => rw [List.foldl_cons, ih]; exact hf _ _

theorem foldl_proj_append {β γ : Type} (proj : Batch → List γ) (f : Batch → β → Batch)
    (g : β → List γ) (l : List β) (batch : Batch)
    (hf : ∀ b x, proj (f b x) = proj b ++ g x) :
    proj (l.foldl f batch) = proj batch ++ opsConcat g l := by
  induction l generalizing batch with
  | nil => simp [opsConcat]
  | cons x rest ih =>
    rw [List.foldl_cons, ih, hf]
    simp [opsConcat]

theorem restoreMetadataGo_spec (db : DbState) (ks : List DbKey) (batch b2 : Batch)
    (h : restoreMetadataGo db ks batch = .ok b2) :
    (∃ ops, b2.state = batch.state ++ ops ∧
      ∀ op ∈ ops, ∃ mk v, mk ∈ ks ∧ op = CfOp.put mk v)
    ∧ b2.subspace = batch.subspace ∧ b2.diffs = batch.diffs
    ∧ b2.rollbackCf = batch.rollbackCf ∧ b2.block = batch.block
    ∧ b2.replayProt = batch.replayProt := by
  induction ks generalizing batch with
  | nil =>
    rw [restoreMetadataGo] at h
    cases h
    exact ⟨⟨[], by simp, by simp⟩, rfl, rfl, rfl, rfl, rfl⟩
  | cons mk rest ih =>
    rw [restoreMetadataGo] at h
    cases hv : cfGet db.state (predKey mk) with
    | none => rw [hv] at h; exact absurd h (by simp)
    | some v =>
      rw [hv] at h
      have hi := ih _ h
      refine ⟨?_, ?_, ?_, ?_, ?_, ?_⟩
      · rcases hi.1 with ⟨ops, hops, hkeys⟩
        refine ⟨CfOp.put mk v :: ops, ?_, ?_⟩
        · rw [hops]; simp [Batch.putState]
        · intro op hop
          rcases List.mem_cons.mp hop with he | hm
          · exact ⟨mk, v, by simp, he⟩
          · rcases hkeys op hm with ⟨mk2, v2, hmk2, hop2⟩
            exact ⟨mk2, v2, by simp [hmk2], hop2⟩
      · rw [hi.2.1]; rfl
      · rw [hi.2.2.1]; rfl
      · rw [hi.2.2.2.1]; rfl
      · rw [hi.2.2.2.2.1]; rfl
      · rw [hi.2.2.2.2.2]; rfl

theorem restoreConversionState_spec (db : DbState) (lb : BlockStateRead)
    (ph : Nat) (batch b2 : Batch)
    (h : restoreConversionState db lb ph batch = .ok b2) :
    (∃ ops, b2.state = batch.state ++ ops ∧
      ∀ op ∈ ops, ∃ v, op = CfOp.put kConversionState v)
    ∧ b2.subspace = batch.subspace ∧ b2.diffs = batch.diffs
    ∧ b2.rollbackCf = batch.rollbackCf ∧ b2.block = batch.block
    ∧ b2.replayProt = batch.replayProt := by
  unfold restoreConversionState at h
  split at h
  · cases hv : cfGet db.state (predKey kConversionState) with
    | none => rw [hv] at h; exact absurd h (by simp)
    | some v =>
      rw [hv] at h
      cases h
      refine ⟨⟨[CfOp.put kConversionState v], by simp [Batch.putState], ?_⟩,
        rfl, rfl, rfl, rfl, rfl⟩
      intro op hop
      rcases List.mem_singleton.mp hop with he
      exact ⟨v, he⟩
  · cases h
    exact ⟨⟨[], by simp, by simp⟩, rfl, rfl, rfl, rfl, rfl⟩

theorem replayRestore_replay (db : DbState) (batch : Batch) :
    (replayRestore db batch).replayProt = batch.replayProt ++ replayRestoreOps db := by
  unfold replayRestore replayRestoreOps
  dsimp only
  refine Eq.trans (foldl_proj_append (fun b => b.replayProt) _
    (fun h => [CfOp.put (lastKey h) [], CfOp.del (allKey h)]) _ _
    (fun b x => by simp [Batch.putReplay, Batch.delReplay])) ?_
  have hd := foldl_proj_append (fun b => b.replayProt)
    (fun (b : Batch) (h : String) => b.delReplay (lastKey h))
    (fun h => [CfOp.del (lastKey h)]) (lastHashes db) batch
    (fun b x => by simp [Batch.delReplay])
  dsimp only at hd ⊢
  rw [hd]
  simp [List.append_assoc]

theorem replayRestore_state (db : DbState) (batch : Batch) :
    (replayRestore db batch).state = batch.state := by
  unfold replayRestore
  dsimp only
  refine Eq.trans (foldl_proj_const (fun b => b.state) _ _ _ (fun b x => rfl)) ?_
  exact foldl_proj_const (fun b => b.state) _ _ _ (fun b x => rfl)

theorem subspaceRestore_state (db : DbState) (ph lh : Nat) (batch : Batch) :
    (subspaceRestore db ph lh batch).state = batch.state := by
  unfold subspaceRestore
  refine foldl_proj_const (fun b => b.state) _ _ _ ?_
  intro b e
  cases read_subspace_val_with_height db e.1 ph lh <;> rfl

theorem subspaceRestore_replay (db : DbState) (ph lh : Nat) (batch : Batch) :
    (subspaceRestore db ph lh batch).replayProt = batch.replayProt := by
  unfold subspaceRestore
  refine foldl_proj_const (fun b => b.replayProt) _ _ _ ?_
  intro b e
  cases read_subspace_val_with_height db e.1 ph lh <;> rfl

theorem restoreDeletedDiffs_state (db : DbState) (lh : Nat) (batch : Batch) :
    (restoreDeletedDiffs db lh batch).state = batch.state := by
  unfold restoreDeletedDiffs
  refine foldl_proj_const (fun b => b.state) _ _ _ ?_
  intro b e
  dsimp only
  split <;> rfl

theorem restoreDeletedDiffs_replay (db : DbState) (lh : Nat) (batch : Batch) :
    (restoreDeletedDiffs db lh batch).replayProt = batch.replayProt := by
  unfold restoreDeletedDiffs
  refine foldl_proj_const (fun b => b.replayProt) _ _ _ ?_
  intro b e
  dsimp only
  split <;> rfl

theorem rollbackCfRestore_state (db : DbState) (lh : Nat) (batch : Batch) :
    (rollbackCfRestore db lh batch).state = batch.state := by
  unfold rollbackCfRestore
  dsimp only
  refine Eq.trans (foldl_proj_const (fun b => b.state) _ _ _ ?_) ?_
  · intro b e
    dsimp only
    split <;> rfl
  · exact foldl_proj_const (fun b => b.state) _ _ _ (fun b e => rfl)

theorem rollbackCfRestore_replay (db : DbState) (lh : Nat) (batch : Batch) :
    (rollbackCfRestore db lh batch).replayProt = batch.replayProt := by
  unfold rollbackCfRestore
  dsimp only
  refine Eq.trans (foldl_proj_const (fun b => b.replayProt) _ _ _ ?_) ?_
  · intro b e
    dsimp only
    split <;> rfl
  · exact foldl_proj_const (fun b => b.replayProt) _ _ _ (fun b e => rfl)

theorem deleteHeightPrepended_state (db : DbState) (lh : Nat) (batch : Batch) :
    (deleteHeightPrepended db lh batch).state = batch.state := by
  unfold deleteHeightPrepended
  dsimp only
  refine Eq.trans (foldl_proj_const (fun b => b.state) _ _ _ (fun b e => rfl)) ?_
  exact foldl_proj_const (fun b => b.state) _ _ _ (fun b e => rfl)

theorem deleteHeightPrepended_replay (db : DbState) (lh : Nat) (batch : Batch) :
    (deleteHeightPrepended db lh batch).replayProt = batch.replayProt := by
  unfold deleteHeightPrepended
  dsimp only
  refine Eq.trans (foldl_proj_const (fun b => b.replayProt) _ _ _ (fun b e => rfl)) ?_
  exact foldl_proj_const (fun b => b.replayProt) _ _ _ (fun b e => rfl)

/- C2: rollback distance. -/

/-- C2 counterexample: from last height 5, `rollback` at target height 3 —
a distance of two — does not fail with an `UnsupportedRollbackDistance`
error (no such error exists in the code): it succeeds and modifies the
database, leaving the recorded height at 4. -/
theorem rollback_distance_two_succeeds :
    (rollback exDb 3).toOption.map (fun d => cfGet d.state kBlockHeight) =
      some (some (Val.nat 4)) := by decide

/-- C2 (amended): `rollback` compares the target height only against the
recorded last height: when they match it is a no-op, and for any other
target it performs the single-step rollback, leaving the recorded height at
`last_height - 1`.  No rollback-distance check exists. -/
theorem rollback_no_distance_check (db : DbState) (T : Nat) (lb : BlockStateRead)
    (hlb : read_last_block db = .ok (some lb)) :
    (T = lb.height → rollback db T = .ok db)
    ∧ (∀ db2, T ≠ lb.height → rollback db T = .ok db2 →
        cfGet db2.state kBlockHeight = some (Val.nat (prevHeight lb.height))) := by
  constructor
  · intro he
    unfold rollback
    rw [hlb]
    dsimp only
    rw [if_pos he]
  · intro db2 hne hrb
    unfold rollback at hrb
    rw [hlb] at hrb
    try dsimp only at hrb
    rw [if_neg hne] at hrb
    try dsimp only at hrb
    cases hmd : restoreMetadata db
        (Batch.empty.putState kBlockHeight (Val.nat (prevHeight lb.height))) with
    | error e => rw [hmd] at hrb; exact absurd hrb (by simp)
    | ok bmd =>
      rw [hmd] at hrb
      dsimp only at hrb
      cases hcv : restoreConversionState db lb (prevHeight lb.height) bmd with
      | error e => rw [hcv] at hrb; exact absurd hrb (by simp)
      | ok bcv =>
        rw [hcv] at hrb
        dsimp only at hrb
        cases hrb
        have hstate : (deleteHeightPrepended db lb.height
            (rollbackCfRestore db lb.height
              (restoreDeletedDiffs db lb.height
                (subspaceRestore db (prevHeight lb.height) lb.height
                  (replayRestore db
                    (bcv.delBlock (resultsKey lb.height))))))).state = bcv.state := by
          rw [deleteHeightPrepended_state, rollbackCfRestore_state,
            restoreDeletedDiffs_state, subspaceRestore_state, replayRestore_state]
          rfl
        rw [restoreMetadata] at hmd
        rcases (restoreMetadataGo_spec db metadataKeys _ bmd hmd).1 with ⟨ops1, hops1, hkeys1⟩
        rcases (restoreConversionState_spec db lb _ bmd bcv hcv).1 with ⟨ops2, hops2, hkeys2⟩
        have hbcv : bcv.state =
            [CfOp.put kBlockHeight (Val.nat (prevHeight lb.height))] ++ (ops1 ++ ops2) := by
          rw [hops2, hops1]
          simp [Batch.putState, Batch.empty]
        show cfGet (execBatch db _).state kBlockHeight = _
        have hexec : (execBatch db (deleteHeightPrepended db lb.height
            (rollbackCfRestore db lb.height
              (restoreDeletedDiffs db lb.height
                (subspaceRestore db (prevHeight lb.height) lb.height
                  (replayRestore db
                    (bcv.delBlock (resultsKey lb.height)))))))).state =
            applyCfOps db.state
              ([CfOp.put kBlockHeight (Val.nat (prevHeight lb.height))] ++ (ops1 ++ ops2)) := by
          show applyCfOps db.state _ = _
          rw [hstate, hbcv]
        rw [hexec, applyCfOps_append]
        rw [cfGet_applyCfOps_other]
        · show cfGet (applyCfOps db.state [CfOp.put kBlockHeight (Val.nat (prevHeight lb.height))]) kBlockHeight = _
          show cfGet (applyCfOp db.state (CfOp.put kBlockHeight (Val.nat (prevHeight lb.height)))) kBlockHeight = _
          rw [cfGet_put, if_pos rfl]
        · intro op hop
          rcases List.mem_append.mp hop with hm | hm
          · rcases hkeys1 op hm with ⟨mk, v, hmk, hop2⟩
            rw [hop2]
            show mk ≠ kBlockHeight
            simp only [metadataKeys, List.mem_cons, List.mem_singleton] at hmk
            rcases hmk with h1 | h1 | h1 | h1 | h1
            · rw [h1]; decide
            · rw [h1]; decide
            · rw [h1]; decide
            · rw [h1]; decide
            · simp at h1
          · rcases hkeys2 op hm with ⟨v, hop2⟩
            rw [hop2]
            show kConversionState ≠ kBlockHeight
            decide

/-- Witness for the amended rollback theorem: the example state at last
height 5 rolled back to target 4 is a single step, and rolling back to the
matching height 5 is a no-op. -/
theorem rollback_no_distance_check_witness :
    rollback exDb 5 = Except.ok exDb ∧
    cfGet exDbRolled4.state kBlockHeight = some (Val.nat (prevHeight 5)) :=
  ⟨(rollback_no_distance_check exDb 5 exLb (by decide)).1 rfl,
   (rollback_no_distance_check exDb 4 exLb (by decide)).2 exDbRolled4
     (by decide) (by decide)⟩

/- C3: replay protection across rollback. -/

theorem applyCfOps_dels_lastKey (cf : Cf Bytes) (hs : List String) (h : String)
    (hm : h ∈ hs) :
    cfGet (applyCfOps cf (opsConcat (fun x => [CfOp.del (lastKey x)]) hs)) (lastKey h)
      = none := by
  apply cfGet_applyCfOps_del_mem
  · intro v hv
    rw [mem_opsConcat] at hv
    rcases hv with ⟨x, _, hvx⟩
    simp at hvx
  · rw [mem_opsConcat]
    exact ⟨h, hm, by simp⟩

theorem applyCfOps_dels_other (cf : Cf Bytes) (hs : List String) (k : DbKey)
    (hk : ∀ x ∈ hs, k ≠ lastKey x) :
    cfGet (applyCfOps cf (opsConcat (fun x => [CfOp.del (lastKey x)]) hs)) k
      = cfGet cf k := by
  apply cfGet_applyCfOps_other
  intro op hop
  rw [mem_opsConcat] at hop
  rcases hop with ⟨x, hx, hopx⟩
  rcases List.mem_singleton.mp hopx with he
  rw [he]
  exact fun hc => hk x hx hc.symm

theorem applyCfOps_buffer_last (cf : Cf Bytes) (hs : List String) (h : String)
    (hm : h ∈ hs) :
    cfGet (applyCfOps cf
        (opsConcat (fun x => [CfOp.put (lastKey x) [], CfOp.del (allKey x)]) hs))
      (lastKey h) = some [] := by
  induction hs generalizing cf with
  | nil => simp at hm
  | cons x rest ih =>
    rw [opsConcat, applyCfOps_append]
    by_cases hr : h ∈ rest
    · exact ih _ hr
    · have hx : h = x := by
        rcases List.mem_cons.mp hm with he | hrr
        · exact he
        · exact absurd hrr hr
      subst hx
      rw [cfGet_applyCfOps_other]
      · show cfGet (applyCfOps cf [CfOp.put (lastKey h) [], CfOp.del (allKey h)]) _ = _
        show cfGet (applyCfOp (applyCfOp cf (CfOp.put (lastKey h) [])) (CfOp.del (allKey h))) _ = _
        rw [cfGet_applyCfOp_other _ _ _ (by simp [CfOp.key]; exact lastKey_ne_allKey h h ∘ Eq.symm)]
        rw [cfGet_put, if_pos rfl]
      · intro op hop
        rw [mem_opsConcat] at hop
        rcases hop with ⟨y, hy, hopy⟩
        rcases List.mem_cons.mp hopy with he | he
        · rw [he]
          show lastKey y ≠ lastKey h
          intro hc
          exact hr ((lastKey_inj y h).mp hc ▸ hy)
        · rcases List.mem_singleton.mp he with he2
          rw [he2]
          show allKey y ≠ lastKey h
          exact fun hc => lastKey_ne_allKey h y hc.symm

theorem applyCfOps_buffer_all (cf : Cf Bytes) (hs : List String) (h : String)
    (hm : h ∈ hs) :
    cfGet (applyCfOps cf
        (opsConcat (fun x => [CfOp.put (lastKey x) [], CfOp.del (allKey x)]) hs))
      (allKey h) = none := by
  induction hs generalizing cf with
  | nil => simp at hm
  | cons x rest ih =>
    rw [opsConcat, applyCfOps_append]
    by_cases hr : h ∈ rest
    · exact ih _ hr
    · have hx : h = x := by
        rcases List.mem_cons.mp hm with he | hrr
        · exact he
        · exact absurd hrr hr
      subst hx
      rw [cfGet_applyCfOps_other]
      · show cfGet (applyCfOps cf [CfOp.put (lastKey h) [], CfOp.del (allKey h)]) _ = _
        show cfGet (applyCfOp (applyCfOp cf (CfOp.put (lastKey h) [])) (CfOp.del (allKey h))) _ = _
        rw [cfGet_del, if_pos rfl]
      · intro op hop
        rw [mem_opsConcat] at hop
        rcases hop with ⟨y, hy, hopy⟩
        rcases List.mem_cons.mp hopy with he | he
        · rw [he]
          show lastKey y ≠ allKey h
          exact lastKey_ne_allKey y h
        · rcases List.mem_singleton.mp he with he2
          rw [he2]
          show allKey y ≠ allKey h
          intro hc
          have : y = h := by
            simpa [allKey] using hc
          exact hr (this ▸ hy)

/-- C3: during a rollback from last height `L` to `L - 1`, the
replay-protection column family is restored: every hash that was under
`last/` (and is not in the buffer) ends up deleted, and every hash under
`buffer/` ends up with an empty-valued `last/` entry and no `all/` entry
(deleting an absent `all/` entry being a no-op). -/
theorem rollback_replay_spec (db : DbState) (T : Nat) (lb : BlockStateRead)
    (db2 : DbState) (hlb : read_last_block db = .ok (some lb))
    (hne : T ≠ lb.height) (hrb : rollback db T = .ok db2) :
    (∀ h ∈ bufferHashes db,
      cfGet db2.replayProt (lastKey h) = some [] ∧
      cfGet db2.replayProt (allKey h) = none)
    ∧ (∀ h ∈ lastHashes db, h ∉ bufferHashes db →
        cfGet db2.replayProt (lastKey h) = none) := by
  unfold rollback at hrb
  rw [hlb] at hrb
  try dsimp only at hrb
  rw [if_neg hne] at hrb
  try dsimp only at hrb
  cases hmd : restoreMetadata db
      (Batch.empty.putState kBlockHeight (Val.nat (prevHeight lb.height))) with
  | error e => rw [hmd] at hrb; exact absurd hrb (by simp)
  | ok bmd =>
    rw [hmd] at hrb
    dsimp only at hrb
    cases hcv : restoreConversionState db lb (prevHeight lb.height) bmd with
    | error e => rw [hcv] at hrb; exact absurd hrb (by simp)
    | ok bcv =>
      rw [hcv] at hrb
      dsimp only at hrb
      cases hrb
      rw [restoreMetadata] at hmd
      have hbmd := restoreMetadataGo_spec db metadataKeys _ bmd hmd
      have hbcv := restoreConversionState_spec db lb _ bmd bcv hcv
      have hreplay : (deleteHeightPrepended db lb.height
          (rollbackCfRestore db lb.height
            (restoreDeletedDiffs db lb.height
              (subspaceRestore db (prevHeight lb.height) lb.height
                (replayRestore db
                  (bcv.delBlock (resultsKey lb.height))))))).replayProt =
          replayRestoreOps db := by
        rw [deleteHeightPrepended_replay, rollbackCfRestore_replay,
          restoreDeletedDiffs_replay, subspaceRestore_replay, replayRestore_replay]
        show bcv.replayProt ++ replayRestoreOps db = replayRestoreOps db
        rw [hbcv.2.2.2.2.2, hbmd.2.2.2.2.2]
        show Batch.empty.replayProt ++ replayRestoreOps db = replayRestoreOps db
        simp [Batch.empty]
      have hget : (execBatch db (deleteHeightPrepended db lb.height
          (rollbackCfRestore db lb.height
            (restoreDeletedDiffs db lb.height
              (subspaceRestore db (prevHeight lb.height) lb.height
                (replayRestore db
                  (bcv.delBlock (resultsKey lb.height)))))))).replayProt =
          applyCfOps db.replayProt (replayRestoreOps db) := by
        show applyCfOps db.replayProt _ = _
        rw [hreplay]
      constructor
      · intro h hm
        rw [hget]
        unfold replayRestoreOps
        rw [applyCfOps_append]
        exact ⟨applyCfOps_buffer_last _ _ _ hm, applyCfOps_buffer_all _ _ _ hm⟩
      · intro h hml hmb
        rw [hget]
        unfold replayRestoreOps
        rw [applyCfOps_append]
        rw [cfGet_applyCfOps_other]
        · exact applyCfOps_dels_lastKey _ _ _ hml
        · intro op hop
          rw [mem_opsConcat] at hop
          rcases hop with ⟨y, hy, hopy⟩
          rcases List.mem_cons.mp hopy with he | he
          · rw [he]
            show lastKey y ≠ lastKey h
            intro hc
            exact hmb ((lastKey_inj y h).mp hc ▸ hy)
          · rcases List.mem_singleton.mp he with he2
            rw [he2]
            show allKey y ≠ lastKey h
            exact fun hc => lastKey_ne_allKey h y hc.symm

/-- Witness for the replay-restoration theorem on the concrete example:
hash `bb` sits in the buffer and ends restored under `last/` with its
`all/` entry gone. -/
theorem rollback_replay_spec_witness :
    cfGet exDbRolled.replayProt (lastKey "bb") = some [] ∧
    cfGet exDbRolled.replayProt (allKey "bb") = none :=
  (rollback_replay_spec exDb 3 exLb exDbRolled (by decide) (by decide)
    (by decide)).1 "bb" (by decide)

/- C1: history lemmas. -/

theorem valLt_append (l : Hist) (e : Nat × HOp) (h : Nat) :
    valLt (l ++ [e]) h = if e.1 < h then applyHOp (valLt l h) e.2 else valLt l h := by
  unfold valLt
  rw [List.foldl_append]
  rfl

theorem valAll_append (l : Hist) (e : Nat × HOp) :
    valAll (l ++ [e]) = applyHOp (valAll l) e.2 := by
  unfold valAll
  rw [List.foldl_append]
  rfl

theorem valLt_go_eq (h : Nat) : ∀ (l : Hist) (a : Option Bytes), (∀ e ∈ l, e.1 < h) →
    l.foldl (fun cur e => if e.1 < h then applyHOp cur e.2 else cur) a =
      l.foldl (fun cur e => applyHOp cur e.2) a := by
  intro l
  induction l with
  | nil => intro a _; rfl
  | cons x rest ih =>
    intro a hb
    rw [List.foldl_cons, List.foldl_cons, if_pos (hb x (List.mem_cons_self x rest))]
    exact ih _ (fun e he => hb e (List.mem_cons_of_mem _ he))

theorem valLt_eq_valAll (l : Hist) (h : Nat) (hb : ∀ e ∈ l, e.1 < h) :
    valLt l h = valAll l :=
  valLt_go_eq h l none hb

theorem histFind_append (l : Hist) (e : Nat × HOp) (h : Nat) :
    histFind (l ++ [e]) h =
      match histFind l h with
      | some o => some o
      | none => if e.1 = h then some e.2 else none := by
  induction l with
  | nil => simp [histFind]
  | cons x rest ih =>
    by_cases hx : x.1 = h
    · simp [histFind, hx]
    · simp only [List.cons_append, histFind, if_neg hx]
      exact ih

theorem histFind_eq_none (l : Hist) (h : Nat) (hb : ∀ e ∈ l, e.1 ≠ h) :
    histFind l h = none := by
  induction l with
  | nil => rfl
  | cons x rest ih =>
    rw [histFind, if_neg (hb x (List.mem_cons_self _ _))]
    exact ih (fun e he => hb e (List.mem_cons_of_mem _ he))

theorem ne_of_histFind_eq_none (l : Hist) (h : Nat) (hf : histFind l h = none) :
    ∀ e ∈ l, e.1 ≠ h := by
  induction l with
  | nil => intro e he; simp at he
  | cons x rest ih =>
    intro e he
    rw [histFind] at hf
    by_cases hx : x.1 = h
    · rw [if_pos hx] at hf; exact absurd hf (by simp)
    · rw [if_neg hx] at hf
      rcases List.mem_cons.mp he with he2 | he2
      · rw [he2]; exact hx
      · exact ih hf e he2

theorem mem_of_histFind (l : Hist) (h : Nat) (o : HOp) (hf : histFind l h = some o) :
    (h, o) ∈ l := by
  induction l with
  | nil => simp [histFind] at hf
  | cons x rest ih =>
    rw [histFind] at hf
    by_cases hx : x.1 = h
    · rw [if_pos hx] at hf
      have ho : o = x.2 := (Option.some.inj hf).symm
      have : (h, o) = x := by
        rw [ho, ← hx]
      rw [this]
      exact List.mem_cons_self _ _
    · rw [if_neg hx] at hf
      exact List.mem_cons_of_mem _ (ih hf)

theorem sortedHist_append (l : Hist) (e : Nat × HOp) (hs : sortedHist (l ++ [e])) :
    sortedHist l ∧ ∀ a ∈ l, a.1 < e.1 := by
  have hs2 : List.Pairwise (fun a b => a.1 < b.1) (l ++ [e]) := hs
  rw [List.pairwise_append] at hs2
  exact ⟨hs2.1, fun a ha => hs2.2.2 a ha e (List.mem_singleton_self e)⟩

theorem valLt_succ (l : Hist) (H : Nat) (hs : sortedHist l) :
    valLt l (H + 1) =
      match histFind l H with
      | some o => applyHOp (valLt l H) o
      | none => valLt l H := by
  induction l using List.reverseRecOn with
  | nil => rfl
  | append_singleton l e ih =>
    obtain ⟨hs2, hlt⟩ := sortedHist_append l e hs
    rw [valLt_append, valLt_append, histFind_append]
    by_cases he : e.1 = H
    · have hf : histFind l H = none :=
        histFind_eq_none l H (fun a ha => Nat.ne_of_lt (he ▸ hlt a ha))
      rw [hf, if_pos he]
      subst he
      rw [if_pos (Nat.lt_succ_self e.1), if_neg (lt_irrefl e.1)]
      dsimp only
      rw [valLt_eq_valAll l _ (fun a ha => Nat.lt_succ_of_lt (hlt a ha)),
        valLt_eq_valAll l _ hlt]
    · by_cases helt : e.1 < H
      · have hf : histFind l H = none :=
          histFind_eq_none l H (fun a ha => Nat.ne_of_lt (Nat.lt_trans (hlt a ha) helt))
        rw [hf, if_neg he]
        dsimp only
        rw [if_pos (Nat.lt_succ_of_lt helt), if_pos helt]
        have hihl : valLt l (H + 1) = valLt l H := by
          rw [ih hs2, hf]
        rw [hihl]
      · have hge : ¬ e.1 < H + 1 := by
          intro hc
          rcases Nat.lt_succ_iff_lt_or_eq.mp hc with h1 | h1
          · exact helt h1
          · exact he h1
        rw [if_neg hge, if_neg helt, ih hs2]
        cases hh : histFind l H with
        | some o => rfl
        | none => rw [if_neg he]

theorem commitHist_append (key : DbKey) (l : Hist) (e : Nat × HOp) :
    commitHist key (l ++ [e]) = commitHOp key (commitHist key l) e := by
  unfold commitHist
  rw [List.foldl_append]
  rfl

theorem commitHOp_write (key : DbKey) (db : DbState) (h : Nat) (v : Bytes) :
    (commitHOp key db (h, HOp.write v)).subspace =
      applyCfOps db.subspace [CfOp.put key v]
    ∧ (commitHOp key db (h, HOp.write v)).diffs =
      applyCfOps db.diffs (subspaceDiffOps db h key v) := by
  unfold commitHOp subspaceDiffOps
  cases hv : cfGet db.subspace key <;>
    simp [batch_write_subspace_val, hv, batch_write_subspace_diff, Batch.putDiffCf,
      Batch.putDiffs, Batch.putSubspace, Batch.empty, execBatch, oldDiffKey, newDiffKey]

theorem commitHOp_del (key : DbKey) (db : DbState) (h : Nat) :
    (commitHOp key db (h, HOp.del)).subspace =
      applyCfOps db.subspace [CfOp.del key]
    ∧ (commitHOp key db (h, HOp.del)).diffs =
      applyCfOps db.diffs
        (match cfGet db.subspace key with
         | some pv => [CfOp.put (oldDiffKey key h) pv]
         | none => []) := by
  unfold commitHOp
  cases hv : cfGet db.subspace key <;>
    simp [batch_delete_subspace_val, hv, batch_write_subspace_diff, Batch.putDiffCf,
      Batch.putDiffs, Batch.delSubspace, Batch.empty, execBatch, oldDiffKey, newDiffKey]

theorem cfGet_put2_old (cf : Cf Bytes) (key : DbKey) (eh h : Nat) (ov v : Bytes) :
    cfGet (applyCfOps cf [CfOp.put (oldDiffKey key eh) ov, CfOp.put (newDiffKey key eh) v])
        (oldDiffKey key h) =
      if eh = h then some ov else cfGet cf (oldDiffKey key h) := by
  show cfGet (applyCfOp (applyCfOp cf (CfOp.put (oldDiffKey key eh) ov))
    (CfOp.put (newDiffKey key eh) v)) _ = _
  rw [cfGet_put, cfGet_put]
  rw [if_neg (fun hc => oldDiffKey_ne_newDiffKey key key h eh hc.symm)]
  by_cases heh : eh = h
  · rw [if_pos (by rw [heh]), if_pos heh]
  · rw [if_neg (fun hc => heh ((oldDiffKey_height_inj key eh h).mp hc)), if_neg heh]

theorem cfGet_put2_new (cf : Cf Bytes) (key : DbKey) (eh h : Nat) (ov v : Bytes) :
    cfGet (applyCfOps cf [CfOp.put (oldDiffKey key eh) ov, CfOp.put (newDiffKey key eh) v])
        (newDiffKey key h) =
      if eh = h then some v else cfGet cf (newDiffKey key h) := by
  show cfGet (applyCfOp (applyCfOp cf (CfOp.put (oldDiffKey key eh) ov))
    (CfOp.put (newDiffKey key eh) v)) _ = _
  rw [cfGet_put]
  by_cases heh : eh = h
  · rw [if_pos (by rw [heh])]
    rw [if_pos heh]
  · rw [if_neg (fun hc => heh ((newDiffKey_height_inj key eh h).mp hc))]
    rw [cfGet_put, if_neg (oldDiffKey_ne_newDiffKey key key eh h), if_neg heh]

theorem cfGet_put1new_old (cf : Cf Bytes) (key : DbKey) (eh h : Nat) (v : Bytes) :
    cfGet (applyCfOps cf [CfOp.put (newDiffKey key eh) v]) (oldDiffKey key h) =
      cfGet cf (oldDiffKey key h) := by
  show cfGet (applyCfOp cf (CfOp.put (newDiffKey key eh) v)) _ = _
  rw [cfGet_put, if_neg (fun hc => oldDiffKey_ne_newDiffKey key key h eh hc.symm)]

theorem cfGet_put1new_new (cf : Cf Bytes) (key : DbKey) (eh h : Nat) (v : Bytes) :
    cfGet (applyCfOps cf [CfOp.put (newDiffKey key eh) v]) (newDiffKey key h) =
      if eh = h then some v else cfGet cf (newDiffKey key h) := by
  show cfGet (applyCfOp cf (CfOp.put (newDiffKey key eh) v)) _ = _
  rw [cfGet_put]
  by_cases heh : eh = h
  · rw [if_pos (by rw [heh]), if_pos heh]
  · rw [if_neg (fun hc => heh ((newDiffKey_height_inj key eh h).mp hc)), if_neg heh]

theorem cfGet_put1old_old (cf : Cf Bytes) (key : DbKey) (eh h : Nat) (pv : Bytes) :
    cfGet (applyCfOps cf [CfOp.put (oldDiffKey key eh) pv]) (oldDiffKey key h) =
      if eh = h then some pv else cfGet cf (oldDiffKey key h) := by
  show cfGet (applyCfOp cf (CfOp.put (oldDiffKey key eh) pv)) _ = _
  rw [cfGet_put]
  by_cases heh : eh = h
  · rw [if_pos (by rw [heh]), if_pos heh]
  · rw [if_neg (fun hc => heh ((oldDiffKey_height_inj key eh h).mp hc)), if_neg heh]

theorem cfGet_put1old_new (cf : Cf Bytes) (key : DbKey) (eh h : Nat) (pv : Bytes) :
    cfGet (applyCfOps cf [CfOp.put (oldDiffKey key eh) pv]) (newDiffKey key h) =
      cfGet cf (newDiffKey key h) := by
  show cfGet (applyCfOp cf (CfOp.put (oldDiffKey key eh) pv)) _ = _
  rw [cfGet_put, if_neg (oldDiffKey_ne_newDiffKey key key eh h)]

theorem commitHist_inv (key : DbKey) (hist : Hist) (hs : sortedHist hist) :
    cfGet (commitHist key hist).subspace key = valAll hist
    ∧ (∀ h, cfGet (commitHist key hist).diffs (oldDiffKey key h) =
        match histFind hist h with
        | some _ => valLt hist h
        | none => none)
    ∧ (∀ h, cfGet (commitHist key hist).diffs (newDiffKey key h) =
        match histFind hist h with
        | some (HOp.write v) => some v
        | _ => none) := by
  induction hist using List.reverseRecOn with
  | nil => exact ⟨rfl, fun h => rfl, fun h => rfl⟩
  | append_singleton l e ih =>
    obtain ⟨hs2, hlt0⟩ := sortedHist_append l e hs
    obtain ⟨ihs, iho, ihn⟩ := ih hs2
    rw [commitHist_append]
    rcases e with ⟨eh, eop⟩
    have hlt : ∀ a ∈ l, a.1 < eh := hlt0
    have hfl : histFind l eh = none :=
      histFind_eq_none l eh (fun a ha => Nat.ne_of_lt (hlt a ha))
    have hfind_eq : ∀ h, eh ≠ h →
        histFind (l ++ [(eh, eop)]) h = histFind l h := by
      intro h hne
      rw [histFind_append]
      cases hh : histFind l h with
      | some o => rfl
      | none => rw [if_neg hne]
    have hfind_eh : histFind (l ++ [(eh, eop)]) eh = some eop := by
      rw [histFind_append, hfl, if_pos rfl]
    have hvalLt_le : ∀ h, h ≤ eh → valLt (l ++ [(eh, eop)]) h = valLt l h := by
      intro h hle
      rw [valLt_append]
      exact if_neg (Nat.not_lt.mpr hle)
    have hvalAll_eq : valLt l eh = valAll l := valLt_eq_valAll l eh hlt
    have hlt_of_find : ∀ h o, histFind l h = some o → h < eh := by
      intro h o hf
      exact hlt _ (mem_of_histFind l h o hf)
    have hold_case : ∀ h, eh ≠ h →
        (cfGet (commitHist key l).diffs (oldDiffKey key h) =
          match histFind (l ++ [(eh, eop)]) h with
          | some _ => valLt (l ++ [(eh, eop)]) h
          | none => none) := by
      intro h hne
      rw [hfind_eq h hne, iho h]
      cases hh : histFind l h with
      | some o =>
        have : h < eh := hlt_of_find h o hh
        rw [hvalLt_le h (Nat.le_of_lt this)]
      | none => rfl
    have hnew_case : ∀ h, eh ≠ h →
        (cfGet (commitHist key l).diffs (newDiffKey key h) =
          match histFind (l ++ [(eh, eop)]) h with
          | some (HOp.write v) => some v
          | _ => none) := by
      intro h hne
      rw [hfind_eq h hne, ihn h]
    cases eop with
    | write v =>
      obtain ⟨hw_sub, hw_diff⟩ := commitHOp_write key (commitHist key l) eh v
      have hops : subspaceDiffOps (commitHist key l) eh key v =
          match valAll l with
          | some old => [CfOp.put (oldDiffKey key eh) old, CfOp.put (newDiffKey key eh) v]
          | none => [CfOp.put (newDiffKey key eh) v] := by
        unfold subspaceDiffOps
        rw [ihs]
      refine ⟨?_, ?_, ?_⟩
      · rw [hw_sub, valAll_append]
        show cfGet (applyCfOp (commitHist key l).subspace (CfOp.put key v)) key = _
        rw [cfGet_put, if_pos rfl]
        rfl
      · intro h
        rw [hw_diff, hops]
        cases hval : valAll l with
        | some ov =>
          rw [cfGet_put2_old]
          by_cases heh : eh = h
          · subst heh
            rw [if_pos rfl, hfind_eh]
            rw [hvalLt_le eh (Nat.le_refl eh), hvalAll_eq, hval]
          · rw [if_neg heh]
            exact hold_case h heh
        | none =>
          rw [cfGet_put1new_old]
          by_cases heh : eh = h
          · subst heh
            rw [hfind_eh]
            rw [hvalLt_le eh (Nat.le_refl eh), hvalAll_eq, hval]
            rw [iho eh, hfl]
          · exact hold_case h heh
      · intro h
        rw [hw_diff, hops]
        cases hval : valAll l with
        | some ov =>
          rw [cfGet_put2_new]
          by_cases heh : eh = h
          · subst heh
            rw [if_pos rfl, hfind_eh]
          · rw [if_neg heh]
            exact hnew_case h heh
        | none =>
          rw [cfGet_put1new_new]
          by_cases heh : eh = h
          · subst heh
            rw [if_pos rfl, hfind_eh]
          · rw [if_neg heh]
            exact hnew_case h heh
    | del =>
      obtain ⟨hd_sub, hd_diff⟩ := commitHOp_del key (commitHist key l) eh
      have hops : (match cfGet (commitHist key l).subspace key with
          | some pv => [CfOp.put (oldDiffKey key eh) pv]
          | none => ([] : List (CfOp Bytes))) =
          match valAll l with
          | some pv => [CfOp.put (oldDiffKey key eh) pv]
          | none => [] := by
        rw [ihs]
      refine ⟨?_, ?_, ?_⟩
      · rw [hd_sub, valAll_append]
        show cfGet (applyCfOp (commitHist key l).subspace (CfOp.del key)) key = _
        rw [cfGet_del, if_pos rfl]
        rfl
      · intro h
        rw [hd_diff, hops]
        cases hval : valAll l with
        | some pv =>
          rw [cfGet_put1old_old]
          by_cases heh : eh = h
          · subst heh
            rw [if_pos rfl, hfind_eh]
            rw [hvalLt_le eh (Nat.le_refl eh), hvalAll_eq, hval]
          · rw [if_neg heh]
            exact hold_case h heh
        | none =>
          show cfGet (commitHist key l).diffs (oldDiffKey key h) = _
          by_cases heh : eh = h
          · subst heh
            rw [hfind_eh]
            rw [hvalLt_le eh (Nat.le_refl eh), hvalAll_eq, hval]
            rw [iho eh, hfl]
          · exact hold_case h heh
      · intro h
        rw [hd_diff, hops]
        cases hval : valAll l with
        | some pv =>
          rw [cfGet_put1old_new]
          by_cases heh : eh = h
          · subst heh
            rw [hfind_eh, ihn eh, hfl]
          · exact hnew_case h heh
        | none =>
          show cfGet (commitHist key l).diffs (newDiffKey key h) = _
          by_cases heh : eh = h
          · subst heh
            rw [hfind_eh, ihn eh, hfl]
          · exact hnew_case h heh

theorem rsvhLoopGo_eq (key : DbKey) (hist : Hist) (L : Nat) (hs : sortedHist hist)
    (hb : ∀ e ∈ hist, e.1 ≤ L) :
    ∀ (fuel raw : Nat), L ≤ fuel + raw →
      rsvhLoopGo (commitHist key hist) key L fuel raw = valLt hist raw := by
  obtain ⟨ihs, iho, ihn⟩ := commitHist_inv key hist hs
  intro fuel
  induction fuel with
  | zero =>
    intro raw hle
    rw [rsvhLoopGo]
    have hoZ : cfGet (commitHist key hist).diffs (old_and_new_diff_key key raw).1 =
        (match histFind hist raw with
         | some _ => valLt hist raw
         | none => none) := iho raw
    have hnZ : cfGet (commitHist key hist).diffs (old_and_new_diff_key key raw).2 =
        (match histFind hist raw with
         | some (HOp.write v) => some v
         | _ => none) := ihn raw
    have hLr : L ≤ raw := by omega
    cases hfr : histFind hist raw with
    | some o =>
      rw [hfr] at hoZ hnZ
      cases hvr : valLt hist raw with
      | some bytes =>
        rw [hoZ, hvr]
      | none =>
        rw [hoZ, hvr]
        cases o with
        | write v =>
          rw [hnZ]
          rfl
        | del =>
          rw [hnZ]
          show (if (none : Option Bytes).isSome = true then none
            else if L ≤ raw then read_subspace_val (commitHist key hist) key
            else read_subspace_val (commitHist key hist) key) = none
          rw [if_neg (by simp), if_pos hLr]
          show cfGet (commitHist key hist).subspace key = none
          rw [ihs]
          have hraw_le : raw ≤ L := hb _ (mem_of_histFind hist raw HOp.del hfr)
          have hlt1 : ∀ a ∈ hist, a.1 < raw + 1 := fun a ha =>
            Nat.lt_succ_of_le (le_trans (hb a ha) (by omega))
          have h1 : valAll hist = valLt hist (raw + 1) :=
            (valLt_eq_valAll hist (raw + 1) hlt1).symm
          rw [h1, valLt_succ hist raw hs, hfr, hvr]
          rfl
    | none =>
      have hoZ2 : cfGet (commitHist key hist).diffs (old_and_new_diff_key key raw).1 =
          none := by rw [hoZ, hfr]
      have hnZ2 : cfGet (commitHist key hist).diffs (old_and_new_diff_key key raw).2 =
          none := by rw [hnZ, hfr]
      rw [hoZ2, hnZ2]
      show (if (none : Option Bytes).isSome = true then none
        else if L ≤ raw then read_subspace_val (commitHist key hist) key
        else read_subspace_val (commitHist key hist) key) = valLt hist raw
      rw [if_neg (by simp), if_pos hLr]
      show cfGet (commitHist key hist).subspace key = valLt hist raw
      rw [ihs]
      have hallne := ne_of_histFind_eq_none hist raw hfr
      have hltr : ∀ a ∈ hist, a.1 < raw := fun a ha =>
        Nat.lt_of_le_of_ne (le_trans (hb a ha) hLr) (hallne a ha)
      exact (valLt_eq_valAll hist raw hltr).symm
  | succ f ih =>
    intro raw hle
    rw [rsvhLoopGo]
    have hoZ : cfGet (commitHist key hist).diffs (old_and_new_diff_key key raw).1 =
        (match histFind hist raw with
         | some _ => valLt hist raw
         | none => none) := iho raw
    have hnZ : cfGet (commitHist key hist).diffs (old_and_new_diff_key key raw).2 =
        (match histFind hist raw with
         | some (HOp.write v) => some v
         | _ => none) := ihn raw
    have hnext : rsvhLoopGo (commitHist key hist) key L f (raw + 1) =
        valLt hist (raw + 1) := ih (raw + 1) (by omega)
    cases hfr : histFind hist raw with
    | some o =>
      rw [hfr] at hoZ hnZ
      cases hvr : valLt hist raw with
      | some bytes =>
        rw [hoZ, hvr]
      | none =>
        rw [hoZ, hvr]
        cases o with
        | write v =>
          rw [hnZ]
          rfl
        | del =>
          rw [hnZ]
          show (if (none : Option Bytes).isSome = true then none
            else if L ≤ raw then read_subspace_val (commitHist key hist) key
            else rsvhLoopGo (commitHist key hist) key L f (raw + 1)) = none
          rw [if_neg (by simp)]
          by_cases hLr : L ≤ raw
          · rw [if_pos hLr]
            show cfGet (commitHist key hist).subspace key = none
            rw [ihs]
            have hlt1 : ∀ a ∈ hist, a.1 < raw + 1 := fun a ha =>
              Nat.lt_succ_of_le (le_trans (hb a ha) hLr)
            rw [(valLt_eq_valAll hist (raw + 1) hlt1).symm,
              valLt_succ hist raw hs, hfr, hvr]
            rfl
          · rw [if_neg hLr, hnext, valLt_succ hist raw hs, hfr, hvr]
            rfl
    | none =>
      have hoZ2 : cfGet (commitHist key hist).diffs (old_and_new_diff_key key raw).1 =
          none := by rw [hoZ, hfr]
      have hnZ2 : cfGet (commitHist key hist).diffs (old_and_new_diff_key key raw).2 =
          none := by rw [hnZ, hfr]
      rw [hoZ2, hnZ2]
      show (if (none : Option Bytes).isSome = true then none
        else if L ≤ raw then read_subspace_val (commitHist key hist) key
        else rsvhLoopGo (commitHist key hist) key L f (raw + 1)) = valLt hist raw
      rw [if_neg (by simp)]
      by_cases hLr : L ≤ raw
      · rw [if_pos hLr]
        show cfGet (commitHist key hist).subspace key = valLt hist raw
        rw [ihs]
        have hallne := ne_of_histFind_eq_none hist raw hfr
        have hltr : ∀ a ∈ hist, a.1 < raw := fun a ha =>
          Nat.lt_of_le_of_ne (le_trans (hb a ha) hLr) (hallne a ha)
        exact (valLt_eq_valAll hist raw hltr).symm
      · rw [if_neg hLr, hnext, valLt_succ hist raw hs, hfr]

theorem rsvh_hist (key : DbKey) (hist : Hist) (H L : Nat)
    (hs : sortedHist hist) (hb : ∀ e ∈ hist, e.1 ≤ L) :
    read_subspace_val_with_height (commitHist key hist) key H L =
      valLt hist (H + 1) := by
  obtain ⟨ihs, iho, ihn⟩ := commitHist_inv key hist hs
  unfold read_subspace_val_with_height
  have hloop : rsvhLoop (commitHist key hist) key L (H + 1) = valLt hist (H + 1) := by
    unfold rsvhLoop
    exact rsvhLoopGo_eq key hist L hs hb (L - (H + 1)) (H + 1) (by omega)
  show (match cfGet (commitHist key hist).diffs (old_and_new_diff_key key H).2 with
    | some new_val => some new_val
    | none =>
      if (cfGet (commitHist key hist).diffs (old_and_new_diff_key key H).1).isSome = true
      then none
      else rsvhLoop (commitHist key hist) key L (H + 1)) = valLt hist (H + 1)
  cases hfH : histFind hist H with
  | some o =>
    cases o with
    | write v =>
      have hn3 : cfGet (commitHist key hist).diffs (old_and_new_diff_key key H).2 =
          some v := by
        show cfGet (commitHist key hist).diffs (newDiffKey key H) = some v
        rw [ihn H, hfH]
      rw [hn3]
      rw [valLt_succ hist H hs, hfH]
      rfl
    | del =>
      have hn3 : cfGet (commitHist key hist).diffs (old_and_new_diff_key key H).2 =
          none := by
        show cfGet (commitHist key hist).diffs (newDiffKey key H) = none
        rw [ihn H, hfH]
      have ho3 : cfGet (commitHist key hist).diffs (old_and_new_diff_key key H).1 =
          valLt hist H := by
        show cfGet (commitHist key hist).diffs (oldDiffKey key H) = valLt hist H
        rw [iho H, hfH]
      rw [hn3, ho3]
      cases hvH : valLt hist H with
      | some pv =>
        rw [valLt_succ hist H hs, hfH, hvH]
        rfl
      | none =>
        show (if (none : Option Bytes).isSome = true then none
          else rsvhLoop (commitHist key hist) key L (H + 1)) = valLt hist (H + 1)
        rw [if_neg (by simp)]
        exact hloop
  | none =>
    have hn3 : cfGet (commitHist key hist).diffs (old_and_new_diff_key key H).2 =
        none := by
      show cfGet (commitHist key hist).diffs (newDiffKey key H) = none
      rw [ihn H, hfH]
    have ho3 : cfGet (commitHist key hist).diffs (old_and_new_diff_key key H).1 =
        none := by
      show cfGet (commitHist key hist).diffs (oldDiffKey key H) = none
      rw [iho H, hfH]
    rw [hn3, ho3]
    show (if (none : Option Bytes).isSome = true then none
      else rsvhLoop (commitHist key hist) key L (H + 1)) = valLt hist (H + 1)
    rw [if_neg (by simp)]
    exact hloop

theorem rsvhLoopGo_skip (db : DbState) (key : DbKey) (L hgt : Nat) (v : Bytes)
    (hold : cfGet db.diffs (oldDiffKey key hgt) = some v) (hgL : hgt ≤ L) :
    ∀ (fuel raw : Nat), raw ≤ hgt → hgt ≤ fuel + raw →
      (∀ g, raw ≤ g → g < hgt → cfGet db.diffs (oldDiffKey key g) = none ∧
        cfGet db.diffs (newDiffKey key g) = none) →
      rsvhLoopGo db key L fuel raw = some v := by
  intro fuel
  induction fuel with
  | zero =>
    intro raw h1 h2 h3
    have hr : raw = hgt := by omega
    subst hr
    rw [rsvhLoopGo]
    show (match cfGet db.diffs (old_and_new_diff_key key raw).1 with
      | some bytes => some bytes
      | none =>
        if (cfGet db.diffs (old_and_new_diff_key key raw).2).isSome = true then none
        else if L ≤ raw then read_subspace_val db key
        else read_subspace_val db key) = some v
    rw [show (old_and_new_diff_key key raw).1 = oldDiffKey key raw from rfl, hold]
  | succ f ih =>
    intro raw h1 h2 h3
    rw [rsvhLoopGo]
    by_cases hr : raw = hgt
    · subst hr
      show (match cfGet db.diffs (old_and_new_diff_key key raw).1 with
        | some bytes => some bytes
        | none =>
          if (cfGet db.diffs (old_and_new_diff_key key raw).2).isSome = true then none
          else if L ≤ raw then read_subspace_val db key
          else rsvhLoopGo db key L f (raw + 1)) = some v
      rw [show (old_and_new_diff_key key raw).1 = oldDiffKey key raw from rfl, hold]
    · have hrlt : raw < hgt := Nat.lt_of_le_of_ne h1 hr
      have hnone := h3 raw (Nat.le_refl raw) hrlt
      show (match cfGet db.diffs (old_and_new_diff_key key raw).1 with
        | some bytes => some bytes
        | none =>
          if (cfGet db.diffs (old_and_new_diff_key key raw).2).isSome = true then none
          else if L ≤ raw then read_subspace_val db key
          else rsvhLoopGo db key L f (raw + 1)) = some v
      rw [show (old_and_new_diff_key key raw).1 = oldDiffKey key raw from rfl,
        show (old_and_new_diff_key key raw).2 = newDiffKey key raw from rfl,
        hnone.1, hnone.2]
      show (if (none : Option Bytes).isSome = true then none
        else if L ≤ raw then read_subspace_val db key
        else rsvhLoopGo db key L f (raw + 1)) = some v
      rw [if_neg (by simp), if_neg (by omega)]
      exact ih (raw + 1) hrlt (by omega)
        (fun g hg1 hg2 => h3 g (by omega) hg2)

/-- C1: the historic read returns exactly the value the key had at the
queried height.  First conjunct: over any strictly-increasing per-key
history of writes and deletes committed through the subspace write path with
persisted diffs, `read_subspace_val_with_height(K, H, L)` equals the last
value written at some height at most `H`, or `none` if the key was deleted
at or before `H` or never written by then.  Second conjunct: at `H` itself
the new diff takes precedence over the old diff.  Third conjunct: at a later
height the old diff takes precedence over the new diff — the first height in
`(H, L]` carrying an old diff returns it even if a new diff is present
there. -/
theorem read_subspace_val_with_height_spec :
    (∀ (key : DbKey) (hist : Hist) (H L : Nat), sortedHist hist → H ≤ L →
      (∀ e ∈ hist, e.1 ≤ L) →
      read_subspace_val_with_height (commitHist key hist) key H L = valLe hist H)
    ∧ (∀ (db : DbState) (key : DbKey) (H L : Nat) (v : Bytes),
        cfGet db.diffs (newDiffKey key H) = some v →
        read_subspace_val_with_height db key H L = some v)
    ∧ (∀ (db : DbState) (key : DbKey) (H L hgt : Nat) (v : Bytes),
        H < hgt → hgt ≤ L →
        (∀ g, H ≤ g → g < hgt → cfGet db.diffs (oldDiffKey key g) = none ∧
          cfGet db.diffs (newDiffKey key g) = none) →
        cfGet db.diffs (oldDiffKey key hgt) = some v →
        read_subspace_val_with_height db key H L = some v) := by
  refine ⟨?_, ?_, ?_⟩
  · intro key hist H L hs _ hb
    exact rsvh_hist key hist H L hs hb
  · intro db key H L v hnew
    unfold read_subspace_val_with_height
    show (match cfGet db.diffs (old_and_new_diff_key key H).2 with
      | some new_val => some new_val
      | none =>
        if (cfGet db.diffs (old_and_new_diff_key key H).1).isSome = true then none
        else rsvhLoop db key L (H + 1)) = some v
    rw [show (old_and_new_diff_key key H).2 = newDiffKey key H from rfl, hnew]
  · intro db key H L hgt v hHh hgL h3 hold
    unfold read_subspace_val_with_height
    have hH := h3 H (Nat.le_refl H) hHh
    show (match cfGet db.diffs (old_and_new_diff_key key H).2 with
      | some new_val => some new_val
      | none =>
        if (cfGet db.diffs (old_and_new_diff_key key H).1).isSome = true then none
        else rsvhLoop db key L (H + 1)) = some v
    rw [show (old_and_new_diff_key key H).2 = newDiffKey key H from rfl, hH.2]
    show (if (cfGet db.diffs (old_and_new_diff_key key H).1).isSome = true then none
      else rsvhLoop db key L (H + 1)) = some v
    rw [show (old_and_new_diff_key key H).1 = oldDiffKey key H from rfl, hH.1]
    rw [if_neg (by simp)]
    unfold rsvhLoop
    exact rsvhLoopGo_skip db key L hgt v hold hgL (L - (H + 1)) (H + 1) hHh (by omega)
      (fun g hg1 hg2 => h3 g (by omega) hg2)

/-- Witness for the historic-read theorem: a key written at height 1 and
deleted at height 3, queried at height 2 with last height 3, reads back the
height-1 value. -/
theorem read_subspace_val_with_height_spec_witness :
    read_subspace_val_with_height
        (commitHist [Seg.str "k"] [(1, HOp.write [7]), (3, HOp.del)])
        [Seg.str "k"] 2 3 = valLe [(1, HOp.write [7]), (3, HOp.del)] 2 :=
  read_subspace_val_with_height_spec.1 [Seg.str "k"]
    [(1, HOp.write [7]), (3, HOp.del)] 2 3 (by decide) (by decide) (by decide)
